import Mathlib

/-!
Verification of the Connect Four minimax engine (class MinimaxPlayer of try4.py).

Shallow embedding conventions:
* a board observation is a function assigning a cell value to each (row, column)
  pair of integers; only rows 0..5 and columns 0..6 matter (EMPTY = 0,
  SELF = 1, OPPONENT = -1), matching the numpy array indexing of the source;
* Python float scores with the two infinities are embedded as
  `WithBot (WithTop Int)`: bottom is float(-inf), top is float(+inf), and every
  heuristic value is a finite integer (all evaluator increments are integers);
* the `raise ValueError` of `_apply_move` is embedded as an `Option` result;
* each Python method of the class becomes a top-level definition of the same
  name (without the leading underscore fixing, snake case preserved).
-/

set_option maxRecDepth 20000

/-- Score type of the search: minus infinity, finite integers, plus infinity,
embedding the Python float values used by the engine. -/
abbrev Score := WithBot (WithTop Int)

/-- Embed a finite integer evaluation into the score type. -/
def Score.ofInt (n : Int) : Score := ((n : WithTop Int) : Score)

/-- A board observation: a cell value for every (row, column) integer pair. -/
abbrev Board := Int → Int → Int

/-- The step offsets -3..3 scanned by `_check_win` and `_score_position`. -/
def steps : List Int := [-3, -2, -1, 0, 1, 2, 3]

/-- The per-step test of `_check_win`: the scanned cell is on the board and
holds the given player value (`0 <= r < 6 and 0 <= c < 7 and board[r, c] == player`). -/
def step_ok (b : Board) (p r c : Int) : Bool :=
  decide (0 ≤ r) && decide (r < 6) && decide (0 ≤ c) && decide (c < 7) && (b r c == p)

/-- The run-length counter of `_check_win`: count consecutive `true` entries,
resetting on `false`, and report whether the count ever reaches 4. -/
def run_win_aux : Nat → List Bool → Bool
  | _, [] => false
  | cnt, x :: xs => if x then (cnt + 1 == 4) || run_win_aux (cnt + 1) xs
                    else run_win_aux 0 xs

/-- Whether a list of cell tests contains four consecutive successes. -/
def run_win (l : List Bool) : Bool := run_win_aux 0 l

/-- One direction of `_check_win`: scan steps -3..3 from the anchor cell. -/
def dir_win (b : Board) (p row col dr dc : Int) : Bool :=
  run_win (steps.map fun s => step_ok b p (row + s * dr) (col + s * dc))

/-- Win check of the source (`_check_win`): four consecutive cells of `player`
in one of the four line directions through the just-played cell. -/
def check_win (b : Board) (p row col : Int) : Bool :=
  [((1 : Int), (0 : Int)), (0, 1), (1, 1), (1, -1)].any fun d =>
    dir_win b p row col d.1 d.2

/-- The columns 0..6 as integers, in ascending order. -/
def cols : List Int := (List.range 7).map fun n => (n : Int)

/-- Legal moves of the search (`valid_moves` in `_minimax`): columns whose top
cell (row 0) is empty, in ascending order. -/
def valid_moves (b : Board) : List Int := cols.filter fun c => b 0 c == 0

/-- The rows scanned bottom-up by `_apply_move` (`range(5, -1, -1)`). -/
def rows_desc : List Int := [5, 4, 3, 2, 1, 0]

/-- Board update: set one cell, leaving every other cell unchanged. -/
def upd (b : Board) (i c p : Int) : Board :=
  fun r' c' => if r' = i ∧ c' = c then p else b r' c'

/-- Move application of the source (`_apply_move`): place the player value in
the lowest empty cell of the column; `none` embeds the `raise ValueError`
on a full column. Returns the new board, the landing row, and the column. -/
def apply_move (b : Board) (c p : Int) : Option (Board × Int × Int) :=
  (rows_desc.find? fun i => b i c == 0).map fun i => (upd b i c p, i, c)

/-- The gravity invariant of the board model: every occupied cell of the grid
rests on an occupied cell or on the bottom row. -/
def gravity (b : Board) : Prop :=
  ∀ r : Fin 5, ∀ c : Fin 7, b (r : Int) (c : Int) ≠ 0 → b ((r : Int) + 1) (c : Int) ≠ 0

instance (b : Board) : Decidable (gravity b) := by
  unfold gravity; infer_instance

/-- Horizontal mirror of a board: column c maps to column 6 - c. -/
def mirror (b : Board) : Board := fun r c => b r (6 - c)

/-! ## Static evaluators -/

/-- Center-control term of `_evaluate_board`: 4 per SELF piece in column 3. -/
def center_term (b : Board) : Int :=
  ((((List.range 6).map fun i => b (i : Int) 3).count 1 : Nat) : Int) * 4

/-- The 7-cell line through an anchor cell in one direction, with `none` as the
out-of-bounds placeholder (`_score_position`). -/
def position_line (b : Board) (row col dr dc : Int) : List (Option Int) :=
  steps.map fun s =>
    let r := row + s * dr
    let c := col + s * dc
    if 0 ≤ r ∧ r < 6 ∧ 0 ≤ c ∧ c < 7 then some (b r c) else none

/-- Score one 4-cell window of a line (`_evaluate_line` body). -/
def evaluate_window (w : List (Option Int)) (p : Int) : Int :=
  if w.count (some p) == 4 then 1000
  else if w.count (some p) == 3 && w.count (some 0) == 1 then 15
  else if w.count (some p) == 2 && w.count (some 0) == 2 then 7
  else if w.count (some (-p)) == 3 && w.count (some 0) == 1 then -20
  else 0

/-- Score of a 7-cell line: sum over its four contiguous 4-cell windows
(`_evaluate_line`). -/
def evaluate_line (line : List (Option Int)) (p : Int) : Int :=
  ((List.range 4).map fun i => evaluate_window ((line.drop i).take 4) p).sum

/-- Score of one anchor cell over the four directions (`_score_position`). -/
def score_position (b : Board) (row col p : Int) : Int :=
  ([((1 : Int), (0 : Int)), (0, 1), (1, 1), (1, -1)].map fun d =>
    evaluate_line (position_line b row col d.1 d.2) p).sum

/-- All 42 cells of the grid in the row-major order of the source loops. -/
def cells : List (Int × Int) :=
  (List.range 6).flatMap fun r => (List.range 7).map fun c => ((r : Int), (c : Int))

/-- Pattern term of `_evaluate_board`: for every occupied cell, the SELF
position score minus the OPPONENT position score. -/
def pattern_sum (b : Board) : Int :=
  (cells.map fun rc =>
    if b rc.1 rc.2 == 0 then 0
    else score_position b rc.1 rc.2 1 - score_position b rc.1 rc.2 (-1)).sum

/-- Number of columns that win immediately for `p` on a board (the inner loop
of `_detect_forks`): legal columns whose drop completes four in a row. -/
def winning_moves_count (sb : Board) (p : Int) : Nat :=
  cols.countP fun m =>
    sb 0 m == 0 &&
      (match apply_move sb m p with
       | some (tb, tr, tc) => check_win tb p tr tc
       | none => false)

/-- Fork term of the source (`_detect_forks`): 50 for every empty cell whose
column drop for `p` yields strictly more than one immediately winning column. -/
def detect_forks (b : Board) (p : Int) : Int :=
  (cells.map fun rc =>
    if b rc.1 rc.2 == 0 then
      match apply_move b rc.2 p with
      | some (sb, _, _) => if 1 < winning_moves_count sb p then 50 else 0
      | none => 0
    else 0).sum

/-- Heuristic evaluator of the source (`_evaluate_board`). -/
def evaluate_board (b : Board) : Int :=
  center_term b + pattern_sum b + detect_forks b 1 - detect_forks b (-1)

/-- Simple evaluator of the source (`_simple_evaluate_board`). -/
def simple_evaluate_board (b : Board) : Int :=
  (cols.map fun m =>
    if b 0 m == 0 then
      match apply_move b m 1 with
      | some (nb, r, c) =>
        if check_win nb 1 r c then 100
        else if check_win nb (-1) r c then -100
        else 0
      | none => 0
    else 0).sum

/-- Evaluator dispatch on the `heuristic` configuration flag. -/
def static_eval (h : Bool) (b : Board) : Int :=
  if h then evaluate_board b else simple_evaluate_board b

/-! ## The search (`_minimax` with alpha-beta pruning) -/

/-- Maximizing loop of `_minimax` (lines 59-75 of the source): iterate over the
legal moves with accumulators for the best score, best move and alpha; return
`(+inf, move)` on an immediately winning move, stop early when `beta <= alpha`.
The recursive descent is the function argument `f`. The `none` branch embeds
the unreachable `ValueError` of `_apply_move` on an illegal move. -/
def max_loop (f : Board → Score → Score → Score × Option Int) (b : Board) :
    List Int → Score → Option Int → Score → Score → Score × Option Int
  | [], maxEval, best, _, _ => (maxEval, best)
  | m :: rest, maxEval, best, alpha, beta =>
    match apply_move b m 1 with
    | none => (Score.ofInt 0, none)
    | some (nb, r, c) =>
      if check_win nb 1 r c then ((⊤ : Score), some m)
      else
        let ev := (f nb alpha beta).1
        let st := if maxEval < ev then (ev, some m) else (maxEval, best)
        let alpha' := max alpha ev
        if beta ≤ alpha' then st
        else max_loop f b rest st.1 st.2 alpha' beta

/-- Minimizing loop of `_minimax` (lines 76-92 of the source), symmetric to
`max_loop` with the opponent player value -1. -/
def min_loop (f : Board → Score → Score → Score × Option Int) (b : Board) :
    List Int → Score → Option Int → Score → Score → Score × Option Int
  | [], minEval, best, _, _ => (minEval, best)
  | m :: rest, minEval, best, alpha, beta =>
    match apply_move b m (-1) with
    | none => (Score.ofInt 0, none)
    | some (nb, r, c) =>
      if check_win nb (-1) r c then ((⊥ : Score), some m)
      else
        let ev := (f nb alpha beta).1
        let st := if ev < minEval then (ev, some m) else (minEval, best)
        let beta' := min beta ev
        if beta' ≤ alpha then st
        else min_loop f b rest st.1 st.2 alpha beta'

/-- The search of the source (`_minimax`): depth-limited minimax with
alpha-beta pruning, immediate-win short-circuit, first-legal-move fallback,
and static evaluation at cutoffs. -/
def minimax (h : Bool) : Nat → Board → Bool → Score → Score → Score × Option Int
  | 0, b, _, _, _ => (Score.ofInt (static_eval h b), (valid_moves b).head?)
  | d + 1, b, maxim, alpha, beta =>
    if (valid_moves b).isEmpty then (Score.ofInt (static_eval h b), none)
    else if maxim then
      let r := max_loop (fun nb a bt => minimax h d nb false a bt) b
        (valid_moves b) ⊥ none alpha beta
      (r.1, match r.2 with | some m => some m | none => (valid_moves b).head?)
    else
      let r := min_loop (fun nb a bt => minimax h d nb true a bt) b
        (valid_moves b) ⊤ none alpha beta
      (r.1, match r.2 with | some m => some m | none => (valid_moves b).head?)

/-- Root call of the engine (`_minimax_decision`): full window, maximizing. -/
def minimax_decision (h : Bool) (maxDepth : Nat) (b : Board) : Option Int :=
  (minimax h maxDepth b true ⊥ ⊤).2

/-- The decision facade on a single observation (`play`). -/
def play (h : Bool) (maxDepth : Nat) (b : Board) : Option Int :=
  minimax_decision h maxDepth b

/-- The decision facade on a batch of observations (`play` on a list). -/
def play_batch (h : Bool) (maxDepth : Nat) (obs : List Board) : List (Option Int) :=
  obs.map (minimax_decision h maxDepth)

/-- Determinism flag reported by the engine (`isDeterministic`). -/
def isDeterministic : Bool := true

/-- Elo rating reported by the engine (`getElo`). -/
def getElo : Int := 2000

/-! ## Specification-side searches for the refinement claims -/

/-- Maximizing loop of the unpruned full minimax that keeps the immediate-win
short-circuit: same move ordering, same evaluator, strict best update, no
alpha-beta cutoff. -/
def full_max_loop (g : Board → Score × Option Int) (b : Board) :
    List Int → Score → Option Int → Score × Option Int
  | [], maxEval, best => (maxEval, best)
  | m :: rest, maxEval, best =>
    match apply_move b m 1 with
    | none => (Score.ofInt 0, none)
    | some (nb, r, c) =>
      if check_win nb 1 r c then ((⊤ : Score), some m)
      else
        let ev := (g nb).1
        if maxEval < ev then full_max_loop g b rest ev (some m)
        else full_max_loop g b rest maxEval best

/-- Minimizing loop of the unpruned full minimax, symmetric to
`full_max_loop`. -/
def full_min_loop (g : Board → Score × Option Int) (b : Board) :
    List Int → Score → Option Int → Score × Option Int
  | [], minEval, best => (minEval, best)
  | m :: rest, minEval, best =>
    match apply_move b m (-1) with
    | none => (Score.ofInt 0, none)
    | some (nb, r, c) =>
      if check_win nb (-1) r c then ((⊥ : Score), some m)
      else
        let ev := (g nb).1
        if ev < minEval then full_min_loop g b rest ev (some m)
        else full_min_loop g b rest minEval best

/-- Unpruned full minimax over the same game tree as `minimax`: same move
ordering, same evaluator, same immediate-win short-circuit and first-legal-move
fallback, but no alpha-beta cutoffs. -/
def minimax_full (h : Bool) : Nat → Board → Bool → Score × Option Int
  | 0, b, _ => (Score.ofInt (static_eval h b), (valid_moves b).head?)
  | d + 1, b, maxim =>
    if (valid_moves b).isEmpty then (Score.ofInt (static_eval h b), none)
    else if maxim then
      let r := full_max_loop (fun nb => minimax_full h d nb false) b
        (valid_moves b) ⊥ none
      (r.1, match r.2 with | some m => some m | none => (valid_moves b).head?)
    else
      let r := full_min_loop (fun nb => minimax_full h d nb true) b
        (valid_moves b) ⊤ none
      (r.1, match r.2 with | some m => some m | none => (valid_moves b).head?)

/-- Maximizing fold of the comparison search described by the claim text of C1:
no alpha-beta cutoffs and no immediate-win short-circuit. -/
def nosc_max_loop (g : Board → Score × Option Int) (b : Board) :
    List Int → Score → Option Int → Score × Option Int
  | [], maxEval, best => (maxEval, best)
  | m :: rest, maxEval, best =>
    match apply_move b m 1 with
    | none => (Score.ofInt 0, none)
    | some (nb, _, _) =>
      let ev := (g nb).1
      if maxEval < ev then nosc_max_loop g b rest ev (some m)
      else nosc_max_loop g b rest maxEval best

/-- Minimizing fold of the claim-text comparison search, symmetric to
`nosc_max_loop`. -/
def nosc_min_loop (g : Board → Score × Option Int) (b : Board) :
    List Int → Score → Option Int → Score × Option Int
  | [], minEval, best => (minEval, best)
  | m :: rest, minEval, best =>
    match apply_move b m (-1) with
    | none => (Score.ofInt 0, none)
    | some (nb, _, _) =>
      let ev := (g nb).1
      if ev < minEval then nosc_min_loop g b rest ev (some m)
      else nosc_min_loop g b rest minEval best

/-- The unpruned comparison minimax exactly as the claim C1 words it: same
move ordering and evaluator as `minimax`, no alpha-beta cutoffs and no
immediate-win short-circuit. -/
def minimax_nosc (h : Bool) : Nat → Board → Bool → Score × Option Int
  | 0, b, _ => (Score.ofInt (static_eval h b), (valid_moves b).head?)
  | d + 1, b, maxim =>
    if (valid_moves b).isEmpty then (Score.ofInt (static_eval h b), none)
    else if maxim then
      let r := nosc_max_loop (fun nb => minimax_nosc h d nb false) b
        (valid_moves b) ⊥ none
      (r.1, match r.2 with | some m => some m | none => (valid_moves b).head?)
    else
      let r := nosc_min_loop (fun nb => minimax_nosc h d nb true) b
        (valid_moves b) ⊤ none
      (r.1, match r.2 with | some m => some m | none => (valid_moves b).head?)

/-! ## Concrete boards used by counterexamples and witnesses -/

/-- The empty board. -/
def bE : Board := fun _ _ => 0

/-- A board whose top row is fully occupied: no legal moves exist. -/
def bT : Board := fun r _ => if r = 0 then 1 else 0

/-- A board with SELF three in a row on the bottom row at columns 1..3:
immediate wins at columns 0 and 4. -/
def b1 : Board := fun r c => if r = 5 ∧ (c = 1 ∨ c = 2 ∨ c = 3) then 1 else 0

/-- A board with SELF three in a row on the bottom row at columns 2..4:
immediate wins at columns 1 and 5, and column 0 does not win. -/
def b2 : Board := fun r c => if r = 5 ∧ (c = 2 ∨ c = 3 ∨ c = 4) then 1 else 0

/-- A board with a SELF double threat (columns 2 and 6 win immediately) and
three OPPONENT pieces stacked on row 4: at depth 3 the pruned search breaks
on the forced-win subtree of column 0 before ever reaching the immediately
winning column 2. -/
def b0 : Board := fun r c =>
  if r = 5 ∧ (c = 3 ∨ c = 4 ∨ c = 5) then 1
  else if r = 4 ∧ (c = 3 ∨ c = 4 ∨ c = 5) then -1
  else 0

/-- A board whose column 0 is full (alternating pieces) and otherwise empty. -/
def bC : Board := fun r c =>
  if c = 0 ∧ 0 ≤ r ∧ r < 6 then (if r = 0 ∨ r = 2 ∨ r = 4 then 1 else -1) else 0

/-! ## Derived predicates used to state the claims -/

/-- Whether dropping a piece of `p` in column `m` immediately wins for `p`. -/
def drop_wins (b : Board) (m p : Int) : Bool :=
  match apply_move b m p with
  | some (nb, r, c) => check_win nb p r c
  | none => false

/-- Number of legal columns whose drop immediately wins for SELF. -/
def win_cols_count (b : Board) : Nat :=
  cols.countP fun m => b 0 m == 0 && drop_wins b m 1

/-- Whether a cell is empty and the drop of `p` in its column creates a fork:
strictly more than one immediately winning column for `p` afterwards. -/
def fork_cell (b : Board) (p : Int) (rc : Int × Int) : Bool :=
  b rc.1 rc.2 == 0 &&
    (match apply_move b rc.2 p with
     | some (sb, _, _) => decide (1 < winning_moves_count sb p)
     | none => false)

/-- Number of empty cells of the grid whose column drop creates a fork. -/
def fork_cells_count (b : Board) (p : Int) : Nat := cells.countP (fork_cell b p)


/-- Fail-soft relation between the true (unpruned) score `t` of a subtree and
the score `v` returned for it by the pruned search on the window `(a, bt)`:
inside the window the value is exact, outside it is a bound on the same side. -/
def fs_rel (t v a bt : Score) : Prop :=
  (t ≤ a → t ≤ v ∧ v ≤ a) ∧ (a < t → t < bt → v = t) ∧ (bt ≤ t → bt ≤ v ∧ v ≤ t)

/-- Value of one maximizing move under the child evaluation `g`: plus infinity
for an immediately winning move, otherwise the child score. -/
def mval_max (g : Board → Score × Option Int) (b : Board) (m : Int) : Score :=
  match apply_move b m 1 with
  | some (nb, r, c) => if check_win nb 1 r c then (⊤ : Score) else (g nb).1
  | none => Score.ofInt 0

/-- Value of one minimizing move under the child evaluation `g`: minus infinity
for an immediately winning opponent move, otherwise the child score. -/
def mval_min (g : Board → Score × Option Int) (b : Board) (m : Int) : Score :=
  match apply_move b m (-1) with
  | some (nb, r, c) => if check_win nb (-1) r c then (⊥ : Score) else (g nb).1
  | none => Score.ofInt 0

/-- Maximum of the move values of a list of moves. -/
def lmax (g : Board → Score × Option Int) (b : Board) : List Int → Score
  | [] => ⊥
  | m :: rest => max (mval_max g b m) (lmax g b rest)

/-- Minimum of the move values of a list of moves. -/
def lmin (g : Board → Score × Option Int) (b : Board) : List Int → Score
  | [] => ⊤
  | m :: rest => min (mval_min g b m) (lmin g b rest)

/-! ## Basic lemmas about scores, legal moves and move application -/

theorem Score.ofInt_lt_top (n : Int) : Score.ofInt n < (⊤ : Score) := by
  simp only [Score.ofInt]
  exact WithBot.coe_lt_coe.mpr (WithTop.coe_lt_top n)

theorem Score.bot_lt_ofInt (n : Int) : (⊥ : Score) < Score.ofInt n :=
  WithBot.bot_lt_coe _

theorem Score.ofInt_ne_top (n : Int) : Score.ofInt n ≠ (⊤ : Score) :=
  ne_of_lt (Score.ofInt_lt_top n)

theorem Score.ofInt_ne_bot (n : Int) : Score.ofInt n ≠ (⊥ : Score) :=
  ne_of_gt (Score.bot_lt_ofInt n)

theorem cols_eq : cols = [0, 1, 2, 3, 4, 5, 6] := by decide

theorem mem_valid_moves {b : Board} {m : Int} :
    m ∈ valid_moves b ↔ 0 ≤ m ∧ m < 7 ∧ b 0 m = 0 := by
  simp only [valid_moves, cols_eq, List.mem_filter, List.mem_cons,
    List.not_mem_nil, or_false, beq_iff_eq]
  constructor
  · rintro ⟨hm, hz⟩
    rcases hm with rfl | rfl | rfl | rfl | rfl | rfl | rfl <;>
      exact ⟨by norm_num, by norm_num, hz⟩
  · rintro ⟨h0, h7, hz⟩
    exact ⟨by omega, hz⟩

theorem valid_moves_sorted (b : Board) : List.Sorted (· < ·) (valid_moves b) := by
  have hc : List.Sorted (· < ·) cols := by rw [cols_eq]; decide
  exact hc.filter _

theorem valid_moves_empty_iff {b : Board} :
    valid_moves b = [] ↔ ∀ m : Int, 0 ≤ m → m < 7 → b 0 m ≠ 0 := by
  rw [List.eq_nil_iff_forall_not_mem]
  constructor
  · intro h m h0 h7 hz
    exact h m (mem_valid_moves.mpr ⟨h0, h7, hz⟩)
  · intro h m hm
    obtain ⟨h0, h7, hz⟩ := mem_valid_moves.mp hm
    exact h m h0 h7 hz

theorem find?_desc_spec (b : Board) (c : Int) :
    ∀ l : List Int, l.Pairwise (· > ·) →
      (∀ i, (l.find? fun j => b j c == 0) = some i →
        b i c = 0 ∧ i ∈ l ∧ ∀ j ∈ l, i < j → b j c ≠ 0) ∧
      ((l.find? fun j => b j c == 0) = none → ∀ j ∈ l, b j c ≠ 0) := by
  intro l
  induction l with
  | nil => intro _; exact ⟨fun i h => by simp [List.find?] at h, fun _ j hj => by simp at hj⟩
  | cons a l ih =>
    intro hs
    obtain ⟨ha, hs'⟩ := List.pairwise_cons.mp hs
    obtain ⟨ihs, ihn⟩ := ih hs'
    by_cases hz : b a c = 0
    · have he : (b a c == 0) = true := beq_iff_eq.mpr hz
      refine ⟨?_, ?_⟩
      · intro i hi
        rw [List.find?_cons_of_pos (p := fun j => b j c == 0) _ he] at hi
        obtain rfl : a = i := by simpa using hi
        refine ⟨hz, List.mem_cons_self _ _, ?_⟩
        intro j hj hlt
        rcases List.mem_cons.mp hj with rfl | hj'
        · omega
        · exact absurd (ha j hj') (by omega)
      · intro hn
        rw [List.find?_cons_of_pos (p := fun j => b j c == 0) _ he] at hn
        exact absurd hn (by simp)
    · have he : (b a c == 0) = false := by
        simpa using hz
      refine ⟨?_, ?_⟩
      · intro i hi
        rw [List.find?_cons_of_neg (p := fun j => b j c == 0) _ (by simp [he])] at hi
        obtain ⟨h1, h2, h3⟩ := ihs i hi
        refine ⟨h1, List.mem_cons_of_mem _ h2, ?_⟩
        intro j hj hlt
        rcases List.mem_cons.mp hj with rfl | hj'
        · exact hz
        · exact h3 j hj' hlt
      · intro hn
        rw [List.find?_cons_of_neg (p := fun j => b j c == 0) _ (by simp [he])] at hn
        intro j hj
        rcases List.mem_cons.mp hj with rfl | hj'
        · exact hz
        · exact ihn hn j hj'

theorem apply_move_eq_some {b : Board} {c p : Int} {nb : Board} {i c' : Int}
    (h : apply_move b c p = some (nb, i, c')) :
    c' = c ∧ nb = upd b i c p ∧ 0 ≤ i ∧ i ≤ 5 ∧ b i c = 0 ∧
      ∀ j, i < j → j ≤ 5 → b j c ≠ 0 := by
  unfold apply_move at h
  rcases hf : rows_desc.find? fun j => b j c == 0 with _ | i₀
  · rw [hf] at h; exact absurd h (by simp)
  · rw [hf] at h
    simp only [Option.map_some', Option.some.injEq, Prod.mk.injEq] at h
    obtain ⟨hnb, hi, hc⟩ := h
    subst hi; subst hc; subst hnb
    have hd : rows_desc.Pairwise (· > ·) := by rw [show rows_desc = [5,4,3,2,1,0] from rfl]; decide
    obtain ⟨h1, h2, h3⟩ := ((find?_desc_spec b c rows_desc hd).1 i₀ hf)
    have hmem : i₀ = 5 ∨ i₀ = 4 ∨ i₀ = 3 ∨ i₀ = 2 ∨ i₀ = 1 ∨ i₀ = 0 := by
      simpa [rows_desc] using h2
    refine ⟨rfl, rfl, by omega, by omega, h1, ?_⟩
    intro j hj1 hj2
    have hjm : j ∈ rows_desc := by
      have : j = 5 ∨ j = 4 ∨ j = 3 ∨ j = 2 ∨ j = 1 ∨ j = 0 := by omega
      simp [rows_desc]; omega
    exact h3 j hjm hj1

theorem apply_move_eq_none {b : Board} {c p : Int} :
    apply_move b c p = none ↔ ∀ j : Int, 0 ≤ j → j ≤ 5 → b j c ≠ 0 := by
  have hd : rows_desc.Pairwise (· > ·) := by rw [show rows_desc = [5,4,3,2,1,0] from rfl]; decide
  constructor
  · intro h j hj1 hj2
    have hn : (rows_desc.find? fun j => b j c == 0) = none := by
      rcases hf : rows_desc.find? fun j => b j c == 0 with _ | i₀
      · rfl
      · unfold apply_move at h; rw [hf] at h; exact absurd h (by simp)
    have hjm : j ∈ rows_desc := by simp [rows_desc]; omega
    exact (find?_desc_spec b c rows_desc hd).2 hn j hjm
  · intro h
    unfold apply_move
    rcases hf : rows_desc.find? fun j => b j c == 0 with _ | i₀
    · rfl
    · obtain ⟨h1, h2, _⟩ := (find?_desc_spec b c rows_desc hd).1 i₀ hf
      have : i₀ = 5 ∨ i₀ = 4 ∨ i₀ = 3 ∨ i₀ = 2 ∨ i₀ = 1 ∨ i₀ = 0 := by
        simpa [rows_desc] using h2
      exact absurd h1 (h i₀ (by omega) (by omega))

theorem apply_move_of_top_empty {b : Board} {c p : Int} (hz : b 0 c = 0) :
    ∃ nb i, apply_move b c p = some (nb, i, c) := by
  rcases hf : apply_move b c p with _ | ⟨nb, i, c'⟩
  · exact absurd (apply_move_eq_none.mp hf 0 le_rfl (by omega)) (by simp [hz])
  · obtain ⟨rfl, _⟩ := apply_move_eq_some hf
    exact ⟨nb, i, rfl⟩

/-! ## Win-detection mirror symmetry (C8) -/

theorem run_win_rev7 :
    ∀ a b c d e f g : Bool,
      run_win [a, b, c, d, e, f, g] = run_win [g, f, e, d, c, b, a] := by decide

theorem run_win_mid_false :
    ∀ a b c e f g : Bool, run_win [a, b, c, false, e, f, g] = false := by decide

theorem step_ok_mirror (b : Board) (p r x : Int) :
    step_ok (mirror b) p r (6 - x) = step_ok b p r x := by
  unfold step_ok mirror
  rw [show (6 : Int) - (6 - x) = x by ring]
  rw [decide_eq_decide.mpr (show (0 : Int) ≤ 6 - x ↔ x < 7 by omega),
      decide_eq_decide.mpr (show (6 : Int) - x < 7 ↔ 0 ≤ x by omega)]
  cases hx : decide (0 ≤ x) <;> cases hy : decide (x < 7) <;> simp

theorem dir_win_mirror_vert (b : Board) (p row col : Int) :
    dir_win (mirror b) p row (6 - col) 1 0 = dir_win b p row col 1 0 := by
  unfold dir_win
  congr 1
  refine List.map_congr_left fun s _ => ?_
  rw [show (6 - col) + s * 0 = 6 - col by ring, step_ok_mirror,
    show col + s * 0 = col by ring]

theorem dir_win_mirror_diag1 (b : Board) (p row col : Int) :
    dir_win (mirror b) p row (6 - col) 1 1 = dir_win b p row col 1 (-1) := by
  unfold dir_win
  congr 1
  refine List.map_congr_left fun s _ => ?_
  rw [show (6 - col) + s * 1 = 6 - (col + s * (-1)) by ring, step_ok_mirror]

theorem dir_win_mirror_diag2 (b : Board) (p row col : Int) :
    dir_win (mirror b) p row (6 - col) 1 (-1) = dir_win b p row col 1 1 := by
  unfold dir_win
  congr 1
  refine List.map_congr_left fun s _ => ?_
  rw [show (6 - col) + s * (-1) = 6 - (col + s * 1) by ring, step_ok_mirror]

theorem dir_win_mirror_horiz (b : Board) (p row col : Int) :
    dir_win (mirror b) p row (6 - col) 0 1 = dir_win b p row col 0 1 := by
  have hL : dir_win (mirror b) p row (6 - col) 0 1 =
      run_win [step_ok b p row (col + 3), step_ok b p row (col + 2),
        step_ok b p row (col + 1), step_ok b p row (col + 0),
        step_ok b p row (col + -1), step_ok b p row (col + -2),
        step_ok b p row (col + -3)] := by
    unfold dir_win steps
    simp only [List.map_cons, List.map_nil]
    congr 1
    simp only [List.cons.injEq, and_true]
    exact ⟨by rw [show row + (-3) * 0 = row by ring,
        show (6 - col) + (-3) * 1 = 6 - (col + 3) by ring, step_ok_mirror],
      by rw [show row + (-2) * 0 = row by ring,
        show (6 - col) + (-2) * 1 = 6 - (col + 2) by ring, step_ok_mirror],
      by rw [show row + (-1) * 0 = row by ring,
        show (6 - col) + (-1) * 1 = 6 - (col + 1) by ring, step_ok_mirror],
      by rw [show row + 0 * 0 = row by ring,
        show (6 - col) + 0 * 1 = 6 - (col + 0) by ring, step_ok_mirror],
      by rw [show row + 1 * 0 = row by ring,
        show (6 - col) + 1 * 1 = 6 - (col + -1) by ring, step_ok_mirror],
      by rw [show row + 2 * 0 = row by ring,
        show (6 - col) + 2 * 1 = 6 - (col + -2) by ring, step_ok_mirror],
      by rw [show row + 3 * 0 = row by ring,
        show (6 - col) + 3 * 1 = 6 - (col + -3) by ring, step_ok_mirror]⟩
  have hR : dir_win b p row col 0 1 =
      run_win [step_ok b p row (col + -3), step_ok b p row (col + -2),
        step_ok b p row (col + -1), step_ok b p row (col + 0),
        step_ok b p row (col + 1), step_ok b p row (col + 2),
        step_ok b p row (col + 3)] := by
    unfold dir_win steps
    simp only [List.map_cons, List.map_nil]
    congr 1
    simp only [List.cons.injEq, and_true]
    exact ⟨by rw [show row + (-3) * 0 = row by ring]; norm_num,
      by rw [show row + (-2) * 0 = row by ring]; norm_num,
      by rw [show row + (-1) * 0 = row by ring]; norm_num,
      by rw [show row + 0 * 0 = row by ring]; norm_num,
      by rw [show row + 1 * 0 = row by ring]; norm_num,
      by rw [show row + 2 * 0 = row by ring]; norm_num,
      by rw [show row + 3 * 0 = row by ring]; norm_num⟩
  rw [hL, hR, run_win_rev7]

theorem check_win_mirror (b : Board) (p row col : Int) :
    check_win b p row col = check_win (mirror b) p row (6 - col) := by
  unfold check_win
  simp only [List.any_cons, List.any_nil, Bool.or_false]
  rw [dir_win_mirror_vert, dir_win_mirror_horiz, dir_win_mirror_diag1, dir_win_mirror_diag2]
  cases dir_win b p row col 1 1 <;> cases dir_win b p row col 1 (-1) <;> simp

/-! ## Anchored win check and the simple evaluator (C10) -/

theorem upd_self (b : Board) (i c p : Int) : upd b i c p i c = p := by
  simp [upd]

theorem check_win_of_ne {b : Board} {p row col : Int} (h : b row col ≠ p) :
    check_win b p row col = false := by
  have hmid : ∀ dr dc : Int, step_ok b p (row + 0 * dr) (col + 0 * dc) = false := by
    intro dr dc
    unfold step_ok
    rw [show row + 0 * dr = row by ring, show col + 0 * dc = col by ring]
    simp [h]
  unfold check_win
  simp only [List.any_cons, List.any_nil, Bool.or_false]
  unfold dir_win steps
  simp only [List.map_cons, List.map_nil]
  rw [hmid 1 0, hmid 0 1, hmid 1 1, hmid 1 (-1), run_win_mid_false,
    run_win_mid_false, run_win_mid_false, run_win_mid_false]
  rfl

theorem sum_map_ite {α : Type} (l : List α) (P : α → Bool) (k : Int) :
    (l.map fun x => if P x then k else 0).sum = k * ((l.countP P : Nat) : Int) := by
  induction l with
  | nil => simp
  | cons a l ih =>
    by_cases h : P a
    · simp only [List.map_cons, List.sum_cons, List.countP_cons, h, if_true, ih]
      push_cast
      ring
    · simp only [List.map_cons, List.sum_cons, List.countP_cons, h, if_false, ih,
        Bool.false_eq_true, add_zero, zero_add]

theorem opp_check_after_drop {b : Board} {m : Int} {nb : Board} {r c : Int}
    (happ : apply_move b m 1 = some (nb, r, c)) :
    check_win nb (-1) r c = false := by
  obtain ⟨rfl, hnb, _, _, _, _⟩ := apply_move_eq_some happ
  subst hnb
  exact check_win_of_ne (by rw [upd_self]; norm_num)

theorem simple_evaluate_board_eq (b : Board) :
    simple_evaluate_board b = 100 * ((win_cols_count b : Nat) : Int) := by
  unfold simple_evaluate_board win_cols_count
  rw [show (cols.map fun m =>
      if b 0 m == 0 then
        match apply_move b m 1 with
        | some (nb, r, c) =>
          if check_win nb 1 r c then 100
          else if check_win nb (-1) r c then -100
          else 0
        | none => 0
      else 0) =
      cols.map fun m => if (b 0 m == 0 && drop_wins b m 1) then (100 : Int) else 0 from ?_]
  · exact sum_map_ite cols _ 100
  · refine List.map_congr_left fun m _ => ?_
    by_cases hz : b 0 m = 0
    · obtain ⟨nb, i, happ⟩ := apply_move_of_top_empty (p := 1) hz
      rw [happ]
      simp only [hz, beq_self_eq_true, if_true, Bool.true_and, drop_wins, happ]
      rw [opp_check_after_drop happ]
      by_cases hw : check_win nb 1 i m = true <;> simp [hw]
    · have : (b 0 m == 0) = false := by simpa using hz
      simp [this]

/-! ## Fork counting (C6) -/

theorem detect_forks_eq (b : Board) (p : Int) :
    detect_forks b p = 50 * ((fork_cells_count b p : Nat) : Int) := by
  unfold detect_forks fork_cells_count
  rw [show (cells.map fun rc =>
      if b rc.1 rc.2 == 0 then
        match apply_move b rc.2 p with
        | some (sb, _, _) => if 1 < winning_moves_count sb p then 50 else 0
        | none => 0
      else 0) = cells.map fun rc => if fork_cell b p rc then (50 : Int) else 0 from ?_]
  · exact sum_map_ite cells _ 50
  · refine List.map_congr_left fun rc hrc => ?_
    by_cases hz : b rc.1 rc.2 = 0
    · rcases happ : apply_move b rc.2 p with _ | ⟨sb, i, c'⟩
      · simp [hz, fork_cell, happ]
      · simp only [hz, beq_self_eq_true, if_true, fork_cell, Bool.true_and, happ]
        by_cases hc : 1 < winning_moves_count sb p <;> simp [hc]
    · have : (b rc.1 rc.2 == 0) = false := by simpa using hz
      simp [fork_cell, this]

/-! ## Move application and the gravity invariant (C4, C5) -/

theorem gravity_step {b : Board} {c : Int} (hg : gravity b) (h0 : 0 ≤ c) (h7 : c < 7) :
    ∀ k : Int, 0 ≤ k → k < 5 → b k c ≠ 0 → b (k + 1) c ≠ 0 := by
  intro k hk0 hk5 h
  have h2 := hg ⟨k.toNat, by omega⟩ ⟨c.toNat, by omega⟩
  simp only [Fin.val_mk] at h2
  rw [Int.toNat_of_nonneg hk0, Int.toNat_of_nonneg h0] at h2
  exact h2 h

theorem gravity_col_full {b : Board} {c : Int} (hg : gravity b) (h0 : 0 ≤ c)
    (h7 : c < 7) (ht : b 0 c ≠ 0) : ∀ j : Int, 0 ≤ j → j ≤ 5 → b j c ≠ 0 := by
  have g1 : b 1 c ≠ 0 := by
    have := gravity_step hg h0 h7 0 le_rfl (by norm_num) ht; norm_num at this; exact this
  have g2 : b 2 c ≠ 0 := by
    have := gravity_step hg h0 h7 1 (by norm_num) (by norm_num) g1; norm_num at this; exact this
  have g3 : b 3 c ≠ 0 := by
    have := gravity_step hg h0 h7 2 (by norm_num) (by norm_num) g2; norm_num at this; exact this
  have g4 : b 4 c ≠ 0 := by
    have := gravity_step hg h0 h7 3 (by norm_num) (by norm_num) g3; norm_num at this; exact this
  have g5 : b 5 c ≠ 0 := by
    have := gravity_step hg h0 h7 4 (by norm_num) (by norm_num) g4; norm_num at this; exact this
  intro j hj0 hj5
  interval_cases j <;> assumption

theorem gravity_upd {b : Board} {i c p : Int} (hg : gravity b) (hp : p ≠ 0)
    (hab : ∀ j, i < j → j ≤ 5 → b j c ≠ 0) :
    gravity (upd b i c p) := by
  intro r cc hne
  have hrb : (r : Nat) < 5 := r.isLt
  by_cases hrc : ((r : Nat) : Int) = i ∧ ((cc : Nat) : Int) = c
  · obtain ⟨hr, hc⟩ := hrc
    have : upd b i c p (((r : Nat) : Int) + 1) ((cc : Nat) : Int) = b (i + 1) c := by
      rw [hr, hc]
      simp only [upd]
      rw [if_neg (by intro hcon; omega)]
    rw [this]
    exact hab (i + 1) (by omega) (by omega)
  · have hold : b ((r : Nat) : Int) ((cc : Nat) : Int) ≠ 0 := by
      have : upd b i c p ((r : Nat) : Int) ((cc : Nat) : Int) =
          b ((r : Nat) : Int) ((cc : Nat) : Int) := by
        simp only [upd]
        rw [if_neg hrc]
      rw [this] at hne
      exact hne
    have hup := hg r cc hold
    by_cases hrc2 : ((r : Nat) : Int) + 1 = i ∧ ((cc : Nat) : Int) = c
    · simp only [upd]
      rw [if_pos hrc2]
      exact hp
    · simp only [upd]
      rw [if_neg hrc2]
      exact hup

/-! ## Returned moves are legal (C3) -/

theorem valid_moves_apply {b : Board} {m : Int} (hm : m ∈ valid_moves b) (p : Int) :
    ∃ nb r, apply_move b m p = some (nb, r, m) :=
  apply_move_of_top_empty (mem_valid_moves.mp hm).2.2

theorem max_loop_best_cases (f : Board → Score → Score → Score × Option Int) (b : Board) :
    ∀ ms : List Int, (∀ m ∈ ms, ∃ nb r, apply_move b m 1 = some (nb, r, m)) →
    ∀ E best A B, (max_loop f b ms E best A B).2 = best ∨
      ∃ m ∈ ms, (max_loop f b ms E best A B).2 = some m := by
  intro ms
  induction ms with
  | nil => intro _ E best A B; left; rfl
  | cons m rest ih =>
    intro hmv E best A B
    obtain ⟨nb, r, happ⟩ := hmv m (List.mem_cons_self m rest)
    simp only [max_loop, happ]
    by_cases hwin : check_win nb 1 r m = true
    · rw [if_pos hwin]
      exact Or.inr ⟨m, List.mem_cons_self m rest, rfl⟩
    · rw [if_neg hwin]
      by_cases hlt : E < (f nb A B).1
      · rw [if_pos hlt]
        by_cases hbr : B ≤ A ⊔ (f nb A B).1
        · rw [if_pos hbr]
          exact Or.inr ⟨m, List.mem_cons_self m rest, rfl⟩
        · rw [if_neg hbr]
          rcases ih (fun x hx => hmv x (List.mem_cons_of_mem m hx)) (f nb A B).1 (some m)
              (A ⊔ (f nb A B).1) B with h | ⟨m', hm', h⟩
          · exact Or.inr ⟨m, List.mem_cons_self m rest, h⟩
          · exact Or.inr ⟨m', List.mem_cons_of_mem m hm', h⟩
      · rw [if_neg hlt]
        by_cases hbr : B ≤ A ⊔ (f nb A B).1
        · rw [if_pos hbr]
          exact Or.inl rfl
        · rw [if_neg hbr]
          rcases ih (fun x hx => hmv x (List.mem_cons_of_mem m hx)) E best
              (A ⊔ (f nb A B).1) B with h | ⟨m', hm', h⟩
          · exact Or.inl h
          · exact Or.inr ⟨m', List.mem_cons_of_mem m hm', h⟩

theorem min_loop_best_cases (f : Board → Score → Score → Score × Option Int) (b : Board) :
    ∀ ms : List Int, (∀ m ∈ ms, ∃ nb r, apply_move b m (-1) = some (nb, r, m)) →
    ∀ E best A B, (min_loop f b ms E best A B).2 = best ∨
      ∃ m ∈ ms, (min_loop f b ms E best A B).2 = some m := by
  intro ms
  induction ms with
  | nil => intro _ E best A B; left; rfl
  | cons m rest ih =>
    intro hmv E best A B
    obtain ⟨nb, r, happ⟩ := hmv m (List.mem_cons_self m rest)
    simp only [min_loop, happ]
    by_cases hwin : check_win nb (-1) r m = true
    · rw [if_pos hwin]
      exact Or.inr ⟨m, List.mem_cons_self m rest, rfl⟩
    · rw [if_neg hwin]
      by_cases hlt : (f nb A B).1 < E
      · rw [if_pos hlt]
        by_cases hbr : B ⊓ (f nb A B).1 ≤ A
        · rw [if_pos hbr]
          exact Or.inr ⟨m, List.mem_cons_self m rest, rfl⟩
        · rw [if_neg hbr]
          rcases ih (fun x hx => hmv x (List.mem_cons_of_mem m hx)) (f nb A B).1 (some m)
              A (B ⊓ (f nb A B).1) with h | ⟨m', hm', h⟩
          · exact Or.inr ⟨m, List.mem_cons_self m rest, h⟩
          · exact Or.inr ⟨m', List.mem_cons_of_mem m hm', h⟩
      · rw [if_neg hlt]
        by_cases hbr : B ⊓ (f nb A B).1 ≤ A
        · rw [if_pos hbr]
          exact Or.inl rfl
        · rw [if_neg hbr]
          rcases ih (fun x hx => hmv x (List.mem_cons_of_mem m hx)) E best
              A (B ⊓ (f nb A B).1) with h | ⟨m', hm', h⟩
          · exact Or.inl h
          · exact Or.inr ⟨m', List.mem_cons_of_mem m hm', h⟩

theorem minimax_move_spec (h : Bool) (d : Nat) (b : Board) (maxim : Bool) (A B : Score) :
    ((minimax h d b maxim A B).2 = none ↔ valid_moves b = []) ∧
    ∀ m, (minimax h d b maxim A B).2 = some m → m ∈ valid_moves b := by
  cases d with
  | zero =>
    simp only [minimax]
    constructor
    · exact List.head?_eq_none_iff
    · intro m hm
      exact List.mem_of_mem_head? (by rw [hm]; exact rfl)
  | succ d =>
    by_cases hemp : (valid_moves b).isEmpty = true
    · have hnil : valid_moves b = [] := by simpa [List.isEmpty_iff] using hemp
      simp only [minimax, hemp, if_true]
      exact ⟨by simp [hnil], by simp⟩
    · have hne : valid_moves b ≠ [] := by simpa [List.isEmpty_iff] using hemp
      obtain ⟨a, t, hvt⟩ := List.exists_cons_of_ne_nil hne
      cases maxim
      · simp only [minimax, hemp, if_false, Bool.false_eq_true]
        rcases hr2 : (min_loop (fun nb a bt => minimax h d nb true a bt) b
            (valid_moves b) ⊤ none A B).2 with _ | m₀
        · constructor
          · rw [hvt]; simp
          · intro m hm
            rw [hvt] at hm
            simp only [List.head?] at hm
            obtain rfl : a = m := by simpa using hm
            rw [hvt]; exact List.mem_cons_self a t
        · constructor
          · simp [hvt]
          · intro m hm
            obtain rfl : m₀ = m := by simpa using hm
            rcases min_loop_best_cases _ b (valid_moves b)
                (fun x hx => valid_moves_apply hx (-1)) ⊤ none A B with hc | ⟨m', hm', hc⟩
            · rw [hr2] at hc; exact absurd hc (by simp)
            · rw [hr2] at hc
              obtain rfl : m' = m₀ := by simpa using hc.symm
              exact hm'
      · simp only [minimax, hemp, if_false, Bool.false_eq_true, eq_self_iff_true, if_true]
        rcases hr2 : (max_loop (fun nb a bt => minimax h d nb false a bt) b
            (valid_moves b) ⊥ none A B).2 with _ | m₀
        · constructor
          · rw [hvt]; simp
          · intro m hm
            rw [hvt] at hm
            simp only [List.head?] at hm
            obtain rfl : a = m := by simpa using hm
            rw [hvt]; exact List.mem_cons_self a t
        · constructor
          · simp [hvt]
          · intro m hm
            obtain rfl : m₀ = m := by simpa using hm
            rcases max_loop_best_cases _ b (valid_moves b)
                (fun x hx => valid_moves_apply hx 1) ⊥ none A B with hc | ⟨m', hm', hc⟩
            · rw [hr2] at hc; exact absurd hc (by simp)
            · rw [hr2] at hc
              obtain rfl : m' = m₀ := by simpa using hc.symm
              exact hm'

/-! ## Strict-improvement tie-break (C7) -/

theorem max_loop_no_overwrite (f : Board → Score → Score → Score × Option Int)
    (b : Board) (m : Int) (rest : List Int) (E : Score) (best : Option Int)
    (A B : Score) {nb : Board} {r : Int}
    (happ : apply_move b m 1 = some (nb, r, m))
    (hwin : check_win nb 1 r m = false)
    (hle : (f nb A B).1 ≤ E) :
    max_loop f b (m :: rest) E best A B =
      if B ≤ A ⊔ (f nb A B).1 then (E, best)
      else max_loop f b rest E best (A ⊔ (f nb A B).1) B := by
  simp only [max_loop, happ, hwin, Bool.false_eq_true, if_false]
  rw [if_neg (not_lt.mpr hle)]

/-! ## Fail-soft correctness of the pruned search (C1) -/

theorem fs_rel_self (t a bt : Score) : fs_rel t t a bt :=
  ⟨fun h => ⟨le_rfl, h⟩, fun _ _ => rfl, fun h => ⟨h, le_rfl⟩⟩

theorem ite_pair_fst (E ev : Score) (x y : Option Int) :
    (if E < ev then (ev, x) else (E, y)).1 = E ⊔ ev := by
  by_cases h : E < ev
  · rw [if_pos h]; exact (sup_eq_right.mpr h.le).symm
  · rw [if_neg h]; exact (sup_eq_left.mpr (not_lt.mp h)).symm

theorem ite_pair_fst_min (E ev : Score) (x y : Option Int) :
    (if ev < E then (ev, x) else (E, y)).1 = E ⊓ ev := by
  by_cases h : ev < E
  · rw [if_pos h]; exact (inf_eq_right.mpr h.le).symm
  · rw [if_neg h]; exact (inf_eq_left.mpr (not_lt.mp h)).symm

theorem full_max_loop_score (g : Board → Score × Option Int) (b : Board) :
    ∀ ms : List Int, (∀ m ∈ ms, ∃ nb r, apply_move b m 1 = some (nb, r, m)) →
    ∀ E best, (full_max_loop g b ms E best).1 = E ⊔ lmax g b ms := by
  intro ms
  induction ms with
  | nil => intro _ E best; simp [full_max_loop, lmax]
  | cons m rest ih =>
    intro hmv E best
    obtain ⟨nb, r, happ⟩ := hmv m (List.mem_cons_self m rest)
    have hmv' := fun x hx => hmv x (List.mem_cons_of_mem m hx)
    simp only [full_max_loop, happ, lmax, mval_max]
    by_cases hwin : check_win nb 1 r m = true
    · rw [if_pos hwin, if_pos hwin]
      simp
    · rw [if_neg hwin, if_neg hwin]
      by_cases hlt : E < (g nb).1
      · rw [if_pos hlt, ih hmv']
        rw [← sup_assoc, sup_eq_right.mpr hlt.le]
      · rw [if_neg hlt, ih hmv']
        rw [← sup_assoc, sup_eq_left.mpr (not_lt.mp hlt)]

theorem full_min_loop_score (g : Board → Score × Option Int) (b : Board) :
    ∀ ms : List Int, (∀ m ∈ ms, ∃ nb r, apply_move b m (-1) = some (nb, r, m)) →
    ∀ E best, (full_min_loop g b ms E best).1 = E ⊓ lmin g b ms := by
  intro ms
  induction ms with
  | nil => intro _ E best; simp [full_min_loop, lmin]
  | cons m rest ih =>
    intro hmv E best
    obtain ⟨nb, r, happ⟩ := hmv m (List.mem_cons_self m rest)
    have hmv' := fun x hx => hmv x (List.mem_cons_of_mem m hx)
    simp only [full_min_loop, happ, lmin, mval_min]
    by_cases hwin : check_win nb (-1) r m = true
    · rw [if_pos hwin, if_pos hwin]
      simp
    · rw [if_neg hwin, if_neg hwin]
      by_cases hlt : (g nb).1 < E
      · rw [if_pos hlt, ih hmv']
        rw [← inf_assoc, inf_eq_right.mpr hlt.le]
      · rw [if_neg hlt, ih hmv']
        rw [← inf_assoc, inf_eq_left.mpr (not_lt.mp hlt)]

theorem max_loop_fs (f : Board → Score → Score → Score × Option Int)
    (g : Board → Score × Option Int) (b : Board) :
    ∀ ms : List Int,
      (∀ m ∈ ms, ∃ nb r, apply_move b m 1 = some (nb, r, m)) →
      (∀ m ∈ ms, ∀ nb r, apply_move b m 1 = some (nb, r, m) →
        ∀ a bt : Score, a < bt → fs_rel ((g nb).1) ((f nb a bt).1) a bt) →
      ∀ E best A B, E ≤ A → A < B →
        fs_rel (E ⊔ lmax g b ms) ((max_loop f b ms E best A B).1) A B := by
  intro ms
  induction ms with
  | nil =>
    intro _ _ E best A B hEA hAB
    simp only [lmax, sup_bot_eq]
    exact fs_rel_self E A B
  | cons m rest ih =>
    intro hmv hrec E best A B hEA hAB
    obtain ⟨nb, r, happ⟩ := hmv m (List.mem_cons_self m rest)
    have hmv' := fun x hx => hmv x (List.mem_cons_of_mem m hx)
    have hrec' := fun x hx => hrec x (List.mem_cons_of_mem m hx)
    simp only [max_loop, happ, lmax, mval_max]
    by_cases hwin : check_win nb 1 r m = true
    · rw [if_pos hwin, if_pos hwin]
      have hT : E ⊔ ((⊤ : Score) ⊔ lmax g b rest) = ⊤ := by simp
      rw [hT]
      refine ⟨?_, ?_, ?_⟩
      · intro h1
        exact absurd (lt_of_le_of_lt h1 (lt_of_lt_of_le hAB le_top)) (lt_irrefl _)
      · intro _ h2
        exact absurd h2 not_top_lt
      · intro _
        exact ⟨le_top, le_rfl⟩
    · rw [if_neg hwin, if_neg hwin]
      obtain ⟨hfs1, hfs2, hfs3⟩ := hrec m (List.mem_cons_self m rest) nb r happ A B hAB
      rcases le_or_lt ((g nb).1) A with hta | hat
      · obtain ⟨htev, heva⟩ := hfs1 hta
        have hAev : A ⊔ (f nb A B).1 = A := sup_eq_left.mpr heva
        rw [hAev, if_neg (not_le.mpr hAB)]
        rw [ite_pair_fst E ((f nb A B).1) (some m) best]
        obtain ⟨ih1, ih2, ih3⟩ := ih hmv' hrec' (E ⊔ (f nb A B).1)
          ((if E < (f nb A B).1 then ((f nb A B).1, some m) else (E, best)).2)
          A B (sup_le hEA heva) hAB
        have hTle : E ⊔ ((g nb).1 ⊔ lmax g b rest) ≤ (E ⊔ (f nb A B).1) ⊔ lmax g b rest := by
          rw [← sup_assoc]
          exact sup_le_sup_right (sup_le_sup_left htev E) _
        refine ⟨?_, ?_, ?_⟩
        · intro h1
          have hLA : lmax g b rest ≤ A :=
            le_trans (le_trans le_sup_right le_sup_right) h1
          obtain ⟨ha, hb⟩ := ih1 (sup_le (sup_le hEA heva) hLA)
          exact ⟨le_trans hTle ha, hb⟩
        · intro h2 hb2
          have hEtA : E ⊔ (g nb).1 ≤ A := sup_le hEA hta
          have hT'L : E ⊔ ((g nb).1 ⊔ lmax g b rest) = lmax g b rest := by
            rcases le_total (E ⊔ (g nb).1) (lmax g b rest) with hh | hh
            · rw [← sup_assoc]; exact sup_eq_right.mpr hh
            · exfalso
              have hle : E ⊔ ((g nb).1 ⊔ lmax g b rest) ≤ A := by
                rw [← sup_assoc, sup_eq_left.mpr hh]; exact hEtA
              exact absurd (lt_of_lt_of_le h2 hle) (lt_irrefl _)
          have hALrest : A < lmax g b rest := by rw [hT'L] at h2; exact h2
          have hT''L : (E ⊔ (f nb A B).1) ⊔ lmax g b rest = lmax g b rest :=
            sup_eq_right.mpr (le_trans (sup_le hEA heva) hALrest.le)
          rw [hT'L]
          rw [hT'L] at hb2
          have := ih2 (by rw [hT''L]; exact hALrest) (by rw [hT''L]; exact hb2)
          rw [hT''L] at this
          exact this
        · intro h3
          have hALrest : B ≤ lmax g b rest := by
            have hEtA : E ⊔ (g nb).1 ≤ A := sup_le hEA hta
            rcases le_total (E ⊔ (g nb).1) (lmax g b rest) with hh | hh
            · rw [← sup_assoc, sup_eq_right.mpr hh] at h3; exact h3
            · rw [← sup_assoc, sup_eq_left.mpr hh] at h3
              exact absurd (lt_of_lt_of_le hAB (le_trans h3 hEtA)) (lt_irrefl _)
          have hT''L : (E ⊔ (f nb A B).1) ⊔ lmax g b rest = lmax g b rest :=
            sup_eq_right.mpr (le_trans (sup_le hEA heva)
              (le_trans hAB.le hALrest))
          obtain ⟨ha, hb⟩ := ih3 (by rw [hT''L]; exact hALrest)
          refine ⟨ha, ?_⟩
          rw [hT''L] at hb
          exact le_trans hb (le_trans le_sup_right le_sup_right)
      · rcases lt_or_le ((g nb).1) B with htb | hbt
        · have hev_t : (f nb A B).1 = (g nb).1 := hfs2 hat htb
          rw [hev_t]
          have hAt : A ⊔ (g nb).1 = (g nb).1 := sup_eq_right.mpr hat.le
          rw [hAt, if_neg (not_le.mpr htb)]
          rw [ite_pair_fst E ((g nb).1) (some m) best]
          have hEt : E ⊔ (g nb).1 = (g nb).1 :=
            sup_eq_right.mpr (le_of_lt (lt_of_le_of_lt hEA hat))
          rw [hEt]
          obtain ⟨ih1, ih2, ih3⟩ := ih hmv' hrec' ((g nb).1)
            ((if E < (g nb).1 then ((g nb).1, some m) else (E, best)).2)
            ((g nb).1) B le_rfl htb
          rw [← sup_assoc, hEt]
          refine ⟨?_, ?_, ?_⟩
          · intro h1
            exact absurd (le_trans le_sup_left h1) (not_le.mpr hat)
          · intro h2 hb2
            rcases le_or_lt ((g nb).1 ⊔ lmax g b rest) ((g nb).1) with hh | hh
            · have hTt : (g nb).1 ⊔ lmax g b rest = (g nb).1 :=
                le_antisymm hh le_sup_left
              obtain ⟨ha, hb⟩ := ih1 (le_of_eq hTt)
              exact le_antisymm (le_trans hb le_sup_left) ha
            · exact ih2 hh hb2
          · intro h3
            exact ih3 h3
        · obtain ⟨hBev, hevt⟩ := hfs3 hbt
          have hAev : A ⊔ (f nb A B).1 = (f nb A B).1 :=
            sup_eq_right.mpr (le_of_lt (lt_of_lt_of_le hAB hBev))
          rw [hAev, if_pos hBev]
          rw [ite_pair_fst E ((f nb A B).1) (some m) best]
          have hEev : E ⊔ (f nb A B).1 = (f nb A B).1 :=
            sup_eq_right.mpr (le_trans hEA (le_of_lt (lt_of_lt_of_le hAB hBev)))
          rw [hEev]
          have htT : (g nb).1 ≤ E ⊔ ((g nb).1 ⊔ lmax g b rest) :=
            le_trans le_sup_left le_sup_right
          refine ⟨?_, ?_, ?_⟩
          · intro h1
            exact absurd (le_trans (le_trans hbt htT) h1) (not_le.mpr hAB)
          · intro _ h2
            exact absurd h2 (not_lt.mpr (le_trans hbt htT))
          · intro _
            exact ⟨hBev, le_trans hevt htT⟩

theorem min_loop_fs (f : Board → Score → Score → Score × Option Int)
    (g : Board → Score × Option Int) (b : Board) :
    ∀ ms : List Int,
      (∀ m ∈ ms, ∃ nb r, apply_move b m (-1) = some (nb, r, m)) →
      (∀ m ∈ ms, ∀ nb r, apply_move b m (-1) = some (nb, r, m) →
        ∀ a bt : Score, a < bt → fs_rel ((g nb).1) ((f nb a bt).1) a bt) →
      ∀ E best A B, B ≤ E → A < B →
        fs_rel (E ⊓ lmin g b ms) ((min_loop f b ms E best A B).1) A B := by
  intro ms
  induction ms with
  | nil =>
    intro _ _ E best A B hBE hAB
    simp only [lmin, inf_top_eq]
    exact fs_rel_self E A B
  | cons m rest ih =>
    intro hmv hrec E best A B hBE hAB
    obtain ⟨nb, r, happ⟩ := hmv m (List.mem_cons_self m rest)
    have hmv' := fun x hx => hmv x (List.mem_cons_of_mem m hx)
    have hrec' := fun x hx => hrec x (List.mem_cons_of_mem m hx)
    simp only [min_loop, happ, lmin, mval_min]
    by_cases hwin : check_win nb (-1) r m = true
    · rw [if_pos hwin, if_pos hwin]
      have hT : E ⊓ ((⊥ : Score) ⊓ lmin g b rest) = ⊥ := by simp
      rw [hT]
      refine ⟨?_, ?_, ?_⟩
      · intro _
        exact ⟨le_rfl, bot_le⟩
      · intro h2 _
        exact absurd h2 not_lt_bot
      · intro h3
        exact absurd (lt_of_lt_of_le hAB h3) not_lt_bot
    · rw [if_neg hwin, if_neg hwin]
      obtain ⟨hfs1, hfs2, hfs3⟩ := hrec m (List.mem_cons_self m rest) nb r happ A B hAB
      rcases le_or_lt B ((g nb).1) with hbt | htb
      · obtain ⟨hBev, hevt⟩ := hfs3 hbt
        have hBev' : B ⊓ (f nb A B).1 = B := inf_eq_left.mpr hBev
        rw [hBev', if_neg (not_le.mpr hAB)]
        rw [ite_pair_fst_min E ((f nb A B).1) (some m) best]
        obtain ⟨ih1, ih2, ih3⟩ := ih hmv' hrec' (E ⊓ (f nb A B).1)
          ((if (f nb A B).1 < E then ((f nb A B).1, some m) else (E, best)).2)
          A B (le_inf hBE hBev) hAB
        have hTle : (E ⊓ (f nb A B).1) ⊓ lmin g b rest ≤ E ⊓ ((g nb).1 ⊓ lmin g b rest) := by
          rw [← inf_assoc]
          exact inf_le_inf_right _ (inf_le_inf_left E hevt)
        have hEtB : B ≤ E ⊓ (g nb).1 := le_inf hBE hbt
        have hT'alt : lmin g b rest ≤ E ⊓ (g nb).1 →
            E ⊓ ((g nb).1 ⊓ lmin g b rest) = lmin g b rest := by
          intro hh
          rw [← inf_assoc]
          exact inf_eq_right.mpr hh
        refine ⟨?_, ?_, ?_⟩
        · intro h1
          have hT'L : E ⊓ ((g nb).1 ⊓ lmin g b rest) = lmin g b rest := by
            rcases le_total (lmin g b rest) (E ⊓ (g nb).1) with hh | hh
            · exact hT'alt hh
            · exfalso
              have hle : E ⊓ ((g nb).1 ⊓ lmin g b rest) = E ⊓ (g nb).1 := by
                rw [← inf_assoc]
                exact inf_eq_left.mpr hh
              rw [hle] at h1
              exact absurd (lt_of_lt_of_le hAB (le_trans hEtB h1)) (lt_irrefl _)
          rw [hT'L] at h1 ⊢
          have hT''L : (E ⊓ (f nb A B).1) ⊓ lmin g b rest = lmin g b rest :=
            inf_eq_right.mpr (le_trans h1
              (le_of_lt (lt_of_lt_of_le hAB (le_inf hBE hBev))))
          obtain ⟨ha, hb⟩ := ih1 (by rw [hT''L]; exact h1)
          rw [hT''L] at ha
          exact ⟨ha, hb⟩
        · intro h2 hb2
          have hT'L : E ⊓ ((g nb).1 ⊓ lmin g b rest) = lmin g b rest := by
            rcases le_total (lmin g b rest) (E ⊓ (g nb).1) with hh | hh
            · exact hT'alt hh
            · exfalso
              have hle : E ⊓ ((g nb).1 ⊓ lmin g b rest) = E ⊓ (g nb).1 := by
                rw [← inf_assoc]
                exact inf_eq_left.mpr hh
              rw [hle] at hb2
              exact absurd (lt_of_le_of_lt hEtB hb2) (lt_irrefl _)
          rw [hT'L] at h2 hb2 ⊢
          have hT''L : (E ⊓ (f nb A B).1) ⊓ lmin g b rest = lmin g b rest :=
            inf_eq_right.mpr (le_trans hb2.le (le_inf hBE hBev))
          have := ih2 (by rw [hT''L]; exact h2) (by rw [hT''L]; exact hb2)
          rw [hT''L] at this
          exact this
        · intro h3
          have hT'leL : E ⊓ ((g nb).1 ⊓ lmin g b rest) ≤ lmin g b rest :=
            le_trans inf_le_right inf_le_right
          obtain ⟨ha, hb⟩ := ih3 (le_inf (le_inf hBE hBev) (le_trans h3 hT'leL))
          exact ⟨ha, le_trans hb hTle⟩
      · rcases lt_or_le A ((g nb).1) with hat | hta
        · have hev_t : (f nb A B).1 = (g nb).1 := hfs2 hat htb
          rw [hev_t]
          have hBt : B ⊓ (g nb).1 = (g nb).1 := inf_eq_right.mpr htb.le
          rw [hBt, if_neg (not_le.mpr hat)]
          rw [ite_pair_fst_min E ((g nb).1) (some m) best]
          have hEt : E ⊓ (g nb).1 = (g nb).1 :=
            inf_eq_right.mpr (le_of_lt (lt_of_lt_of_le htb hBE))
          rw [hEt]
          obtain ⟨ih1, ih2, ih3⟩ := ih hmv' hrec' ((g nb).1)
            ((if (g nb).1 < E then ((g nb).1, some m) else (E, best)).2)
            A ((g nb).1) le_rfl hat
          rw [← inf_assoc, hEt]
          refine ⟨?_, ?_, ?_⟩
          · intro h1
            exact ih1 h1
          · intro h2 hb2
            rcases le_or_lt ((g nb).1) ((g nb).1 ⊓ lmin g b rest) with hh | hh
            · have hTt : (g nb).1 ⊓ lmin g b rest = (g nb).1 :=
                le_antisymm inf_le_left hh
              obtain ⟨ha, hb⟩ := ih3 hh
              exact le_antisymm hb (le_trans (le_of_eq hTt) ha)
            · exact ih2 h2 hh
          · intro h3
            exact absurd (lt_of_le_of_lt (le_trans h3 inf_le_left) htb) (lt_irrefl _)
        · obtain ⟨htev, heva⟩ := hfs1 hta
          have hBev2 : B ⊓ (f nb A B).1 = (f nb A B).1 :=
            inf_eq_right.mpr (le_of_lt (lt_of_le_of_lt heva hAB))
          rw [hBev2, if_pos heva]
          rw [ite_pair_fst_min E ((f nb A B).1) (some m) best]
          have hEev : E ⊓ (f nb A B).1 = (f nb A B).1 :=
            inf_eq_right.mpr (le_of_lt (lt_of_le_of_lt heva (lt_of_lt_of_le hAB hBE)))
          rw [hEev]
          have htT : E ⊓ ((g nb).1 ⊓ lmin g b rest) ≤ (g nb).1 :=
            le_trans inf_le_right inf_le_left
          refine ⟨?_, ?_, ?_⟩
          · intro _
            exact ⟨le_trans htT htev, heva⟩
          · intro h2 _
            exact absurd (lt_of_lt_of_le h2 (le_trans htT hta)) (lt_irrefl _)
          · intro h3
            exact absurd (lt_of_lt_of_le hAB (le_trans h3 (le_trans htT hta))) (lt_irrefl _)

theorem minimax_fs (h : Bool) :
    ∀ (d : Nat) (b : Board) (maxim : Bool) (A B : Score), A < B →
      fs_rel ((minimax_full h d b maxim).1) ((minimax h d b maxim A B).1) A B := by
  intro d
  induction d with
  | zero =>
    intro b maxim A B hAB
    exact fs_rel_self _ A B
  | succ d ihd =>
    intro b maxim A B hAB
    by_cases hemp : (valid_moves b).isEmpty = true
    · cases maxim <;> (simp only [minimax, minimax_full, hemp, if_true]; exact fs_rel_self _ A B)
    · cases maxim
      · simp only [minimax, minimax_full, hemp, if_false, Bool.false_eq_true]
        rw [full_min_loop_score _ b _ (fun x hx => valid_moves_apply hx (-1)) ⊤ none]
        exact min_loop_fs _ _ b (valid_moves b) (fun x hx => valid_moves_apply hx (-1))
          (fun m hm nb r happ a bt habt => ihd nb true a bt habt)
          ⊤ none A B le_top hAB
      · simp only [minimax, minimax_full, hemp, if_false, Bool.false_eq_true,
          eq_self_iff_true, if_true]
        rw [full_max_loop_score _ b _ (fun x hx => valid_moves_apply hx 1) ⊥ none]
        exact max_loop_fs _ _ b (valid_moves b) (fun x hx => valid_moves_apply hx 1)
          (fun m hm nb r happ a bt habt => ihd nb false a bt habt)
          ⊥ none A B bot_le hAB

theorem max_loop_root (f : Board → Score → Score → Score × Option Int)
    (g : Board → Score × Option Int) (b : Board) :
    ∀ ms : List Int,
      (∀ m ∈ ms, ∃ nb r, apply_move b m 1 = some (nb, r, m)) →
      (∀ m ∈ ms, ∀ nb r, apply_move b m 1 = some (nb, r, m) →
        ∀ a bt : Score, a < bt → fs_rel ((g nb).1) ((f nb a bt).1) a bt) →
      ∀ E best, E < ⊤ →
        (max_loop f b ms E best E ⊤).1 = (full_max_loop g b ms E best).1 ∧
        ((full_max_loop g b ms E best).1 ≠ ⊤ →
          (max_loop f b ms E best E ⊤).2 = (full_max_loop g b ms E best).2) := by
  intro ms
  induction ms with
  | nil =>
    intro _ _ E best _
    exact ⟨rfl, fun _ => rfl⟩
  | cons m rest ih =>
    intro hmv hrec E best hET
    obtain ⟨nb, r, happ⟩ := hmv m (List.mem_cons_self m rest)
    have hmv' := fun x hx => hmv x (List.mem_cons_of_mem m hx)
    have hrec' := fun x hx => hrec x (List.mem_cons_of_mem m hx)
    simp only [max_loop, full_max_loop, happ]
    by_cases hwin : check_win nb 1 r m = true
    · rw [if_pos hwin, if_pos hwin]
      exact ⟨rfl, fun _ => rfl⟩
    · rw [if_neg hwin, if_neg hwin]
      obtain ⟨hfs1, hfs2, hfs3⟩ := hrec m (List.mem_cons_self m rest) nb r happ E ⊤ hET
      rcases le_or_lt ((g nb).1) E with htE | hEt
      · obtain ⟨htev, hevE⟩ := hfs1 htE
        rw [if_neg (not_lt.mpr hevE), if_neg (not_lt.mpr htE)]
        rw [sup_eq_left.mpr hevE, if_neg (not_le.mpr hET)]
        exact ih hmv' hrec' E best hET
      · rcases lt_or_le ((g nb).1) ⊤ with htT | hTt
        · have hev : (f nb E ⊤).1 = (g nb).1 := hfs2 hEt htT
          rw [hev]
          rw [if_pos hEt, if_pos hEt]
          rw [sup_eq_right.mpr hEt.le, if_neg (not_le.mpr htT)]
          exact ih hmv' hrec' ((g nb).1) (some m) htT
        · have hTeq : (g nb).1 = ⊤ := le_antisymm le_top hTt
          obtain ⟨hTev, _⟩ := hfs3 hTt
          have hev : (f nb E ⊤).1 = ⊤ := le_antisymm le_top hTev
          rw [hev, hTeq, if_pos hET, if_pos hET]
          rw [sup_eq_right.mpr le_top, if_pos le_rfl]
          constructor
          · rw [full_max_loop_score g b rest hmv' ⊤ (some m)]
            exact (top_sup_eq _).symm
          · intro hne
            exfalso
            apply hne
            rw [full_max_loop_score g b rest hmv' ⊤ (some m)]
            exact top_sup_eq _

theorem min_loop_root (f : Board → Score → Score → Score × Option Int)
    (g : Board → Score × Option Int) (b : Board) :
    ∀ ms : List Int,
      (∀ m ∈ ms, ∃ nb r, apply_move b m (-1) = some (nb, r, m)) →
      (∀ m ∈ ms, ∀ nb r, apply_move b m (-1) = some (nb, r, m) →
        ∀ a bt : Score, a < bt → fs_rel ((g nb).1) ((f nb a bt).1) a bt) →
      ∀ E best, ⊥ < E →
        (min_loop f b ms E best ⊥ E).1 = (full_min_loop g b ms E best).1 ∧
        ((full_min_loop g b ms E best).1 ≠ ⊥ →
          (min_loop f b ms E best ⊥ E).2 = (full_min_loop g b ms E best).2) := by
  intro ms
  induction ms with
  | nil =>
    intro _ _ E best _
    exact ⟨rfl, fun _ => rfl⟩
  | cons m rest ih =>
    intro hmv hrec E best hbE
    obtain ⟨nb, r, happ⟩ := hmv m (List.mem_cons_self m rest)
    have hmv' := fun x hx => hmv x (List.mem_cons_of_mem m hx)
    have hrec' := fun x hx => hrec x (List.mem_cons_of_mem m hx)
    simp only [min_loop, full_min_loop, happ]
    by_cases hwin : check_win nb (-1) r m = true
    · rw [if_pos hwin, if_pos hwin]
      exact ⟨rfl, fun _ => rfl⟩
    · rw [if_neg hwin, if_neg hwin]
      obtain ⟨hfs1, hfs2, hfs3⟩ := hrec m (List.mem_cons_self m rest) nb r happ ⊥ E hbE
      rcases le_or_lt E ((g nb).1) with hEt | htE
      · obtain ⟨hEev, hevt⟩ := hfs3 hEt
        rw [if_neg (not_lt.mpr hEev), if_neg (not_lt.mpr hEt)]
        rw [inf_eq_left.mpr hEev, if_neg (not_le.mpr hbE)]
        exact ih hmv' hrec' E best hbE
      · rcases lt_or_le (⊥ : Score) ((g nb).1) with hbt | htb
        · have hev : (f nb ⊥ E).1 = (g nb).1 := hfs2 hbt htE
          rw [hev]
          rw [if_pos htE, if_pos htE]
          rw [inf_eq_right.mpr htE.le, if_neg (not_le.mpr hbt)]
          exact ih hmv' hrec' ((g nb).1) (some m) hbt
        · have hTeq : (g nb).1 = ⊥ := le_antisymm htb bot_le
          obtain ⟨_, hevb⟩ := hfs1 htb
          have hev : (f nb ⊥ E).1 = ⊥ := le_antisymm hevb bot_le
          rw [hev, hTeq, if_pos hbE, if_pos hbE]
          rw [inf_eq_right.mpr bot_le, if_pos le_rfl]
          constructor
          · rw [full_min_loop_score g b rest hmv' ⊥ (some m)]
            exact (bot_inf_eq _).symm
          · intro hne
            exfalso
            apply hne
            rw [full_min_loop_score g b rest hmv' ⊥ (some m)]
            exact bot_inf_eq _

theorem minimax_root_eq (h : Bool) (d : Nat) (b : Board) (maxim : Bool) :
    (minimax h d b maxim ⊥ ⊤).1 = (minimax_full h d b maxim).1 ∧
    ((minimax_full h d b maxim).1 ≠ (if maxim then (⊤ : Score) else ⊥) →
      (minimax h d b maxim ⊥ ⊤).2 = (minimax_full h d b maxim).2) := by
  cases d with
  | zero => exact ⟨rfl, fun _ => rfl⟩
  | succ d =>
    by_cases hemp : (valid_moves b).isEmpty = true
    · cases maxim <;>
        (simp only [minimax, minimax_full, hemp, if_true]; exact ⟨trivial, fun _ => trivial⟩)
    · cases maxim
      · simp only [minimax, minimax_full, hemp, if_false, Bool.false_eq_true]
        obtain ⟨hsc, hmv⟩ := min_loop_root (fun nb a bt => minimax h d nb true a bt)
          (fun nb => minimax_full h d nb true) b (valid_moves b)
          (fun x hx => valid_moves_apply hx (-1))
          (fun m hm nb r happ a bt habt => minimax_fs h d nb true a bt habt)
          ⊤ none bot_lt_top
        refine ⟨hsc, ?_⟩
        intro hne
        rw [hmv hne]
      · simp only [minimax, minimax_full, hemp, if_false, Bool.false_eq_true,
          eq_self_iff_true, if_true]
        obtain ⟨hsc, hmv⟩ := max_loop_root (fun nb a bt => minimax h d nb false a bt)
          (fun nb => minimax_full h d nb false) b (valid_moves b)
          (fun x hx => valid_moves_apply hx 1)
          (fun m hm nb r happ a bt habt => minimax_fs h d nb false a bt habt)
          ⊥ none bot_lt_top
        refine ⟨hsc, ?_⟩
        intro hne
        rw [hmv hne]

/-! ## Immediate-win short-circuit at the root window (C2) -/

theorem max_loop_win_top (f : Board → Score → Score → Score × Option Int) (b : Board) :
    ∀ ms : List Int,
      (∀ m ∈ ms, ∃ nb r, apply_move b m 1 = some (nb, r, m)) →
      ∀ E best A, E ≤ A → A < ⊤ →
        (∃ w ∈ ms, drop_wins b w 1 = true) →
        (max_loop f b ms E best A ⊤).1 = ⊤ := by
  intro ms
  induction ms with
  | nil =>
    intro _ E best A _ _ hex
    obtain ⟨w, hw, _⟩ := hex
    exact absurd hw (List.not_mem_nil w)
  | cons m rest ih =>
    intro hmv E best A hEA hAT hex
    obtain ⟨nb, r, happ⟩ := hmv m (List.mem_cons_self m rest)
    have hmv' := fun x hx => hmv x (List.mem_cons_of_mem m hx)
    simp only [max_loop, happ]
    by_cases hwm : check_win nb 1 r m = true
    · rw [if_pos hwm]
    · rw [if_neg hwm]
      obtain ⟨w, hw, hdw⟩ := hex
      have hwrest : ∃ w ∈ rest, drop_wins b w 1 = true := by
        rcases List.mem_cons.mp hw with rfl | hw'
        · exfalso
          unfold drop_wins at hdw
          rw [happ] at hdw
          exact hwm hdw
        · exact ⟨w, hw', hdw⟩
      by_cases hbr : (⊤ : Score) ≤ A ⊔ (f nb A ⊤).1
      · rw [if_pos hbr, ite_pair_fst]
        have hsup : A ⊔ (f nb A ⊤).1 = ⊤ := top_le_iff.mp hbr
        have hevT : (f nb A ⊤).1 = ⊤ := by
          rcases le_total A ((f nb A ⊤).1) with hh | hh
          · rw [sup_eq_right.mpr hh] at hsup
            exact hsup
          · rw [sup_eq_left.mpr hh] at hsup
            rw [hsup] at hAT
            exact absurd hAT (lt_irrefl _)
        rw [hevT]
        exact sup_top_eq E
      · rw [if_neg hbr, ite_pair_fst]
        exact ih hmv' (E ⊔ (f nb A ⊤).1) _ (A ⊔ (f nb A ⊤).1)
          (sup_le_sup_right hEA _) (not_le.mp hbr) hwrest

theorem min_loop_win_bot (f : Board → Score → Score → Score × Option Int) (b : Board) :
    ∀ ms : List Int,
      (∀ m ∈ ms, ∃ nb r, apply_move b m (-1) = some (nb, r, m)) →
      ∀ E best B, B ≤ E → ⊥ < B →
        (∃ w ∈ ms, drop_wins b w (-1) = true) →
        (min_loop f b ms E best ⊥ B).1 = ⊥ := by
  intro ms
  induction ms with
  | nil =>
    intro _ E best B _ _ hex
    obtain ⟨w, hw, _⟩ := hex
    exact absurd hw (List.not_mem_nil w)
  | cons m rest ih =>
    intro hmv E best B hBE hbB hex
    obtain ⟨nb, r, happ⟩ := hmv m (List.mem_cons_self m rest)
    have hmv' := fun x hx => hmv x (List.mem_cons_of_mem m hx)
    simp only [min_loop, happ]
    by_cases hwm : check_win nb (-1) r m = true
    · rw [if_pos hwm]
    · rw [if_neg hwm]
      obtain ⟨w, hw, hdw⟩ := hex
      have hwrest : ∃ w ∈ rest, drop_wins b w (-1) = true := by
        rcases List.mem_cons.mp hw with rfl | hw'
        · exfalso
          unfold drop_wins at hdw
          rw [happ] at hdw
          exact hwm hdw
        · exact ⟨w, hw', hdw⟩
      by_cases hbr : B ⊓ (f nb ⊥ B).1 ≤ (⊥ : Score)
      · rw [if_pos hbr, ite_pair_fst_min]
        have hinf : B ⊓ (f nb ⊥ B).1 = ⊥ := le_bot_iff.mp hbr
        have hevB : (f nb ⊥ B).1 = ⊥ := by
          rcases le_total B ((f nb ⊥ B).1) with hh | hh
          · rw [inf_eq_left.mpr hh] at hinf
            rw [hinf] at hbB
            exact absurd hbB (lt_irrefl _)
          · rw [inf_eq_right.mpr hh] at hinf
            exact hinf
        rw [hevB]
        exact inf_bot_eq E
      · rw [if_neg hbr, ite_pair_fst_min]
        exact ih hmv' (E ⊓ (f nb ⊥ B).1) _ (B ⊓ (f nb ⊥ B).1)
          (inf_le_inf_right _ hBE) (not_le.mp hbr) hwrest

theorem max_loop_first_win (f : Board → Score → Score → Score × Option Int)
    (g : Board → Score × Option Int) (b : Board) :
    ∀ ms : List Int,
      (∀ m ∈ ms, ∃ nb r, apply_move b m 1 = some (nb, r, m)) →
      (∀ m ∈ ms, ∀ nb r, apply_move b m 1 = some (nb, r, m) →
        ∀ a bt : Score, a < bt → fs_rel ((g nb).1) ((f nb a bt).1) a bt) →
      List.Sorted (· < ·) ms →
      ∀ w, w ∈ ms → drop_wins b w 1 = true →
        (∀ j ∈ ms, j < w → mval_max g b j ≠ ⊤) →
        ∀ E best A, E ≤ A → A < ⊤ →
          max_loop f b ms E best A ⊤ = ((⊤ : Score), some w) := by
  intro ms
  induction ms with
  | nil =>
    intro _ _ _ w hw
    exact absurd hw (List.not_mem_nil w)
  | cons m rest ih =>
    intro hmv hrec hsort w hw hdw hpre E best A hEA hAT
    obtain ⟨nb, r, happ⟩ := hmv m (List.mem_cons_self m rest)
    have hmv' := fun x hx => hmv x (List.mem_cons_of_mem m hx)
    have hrec' := fun x hx => hrec x (List.mem_cons_of_mem m hx)
    obtain ⟨hall, hsort'⟩ := List.pairwise_cons.mp hsort
    simp only [max_loop, happ]
    rcases List.mem_cons.mp hw with rfl | hwrest
    · have hwm : check_win nb 1 r w = true := by
        unfold drop_wins at hdw
        rw [happ] at hdw
        exact hdw
      rw [if_pos hwm]
    · have hmw : m < w := hall w hwrest
      have hmne := hpre m (List.mem_cons_self m rest) hmw
      have hmnw : check_win nb 1 r m = false := by
        rcases hcw : check_win nb 1 r m with _ | _
        · rfl
        · exfalso
          apply hmne
          simp only [mval_max, happ, hcw, if_true]
      have htne : (g nb).1 ≠ ⊤ := by
        intro hcon
        apply hmne
        simp only [mval_max, happ, hmnw, Bool.false_eq_true, if_false]
        exact hcon
      have htlt : (g nb).1 < ⊤ := lt_top_iff_ne_top.mpr htne
      obtain ⟨hfs1, hfs2, hfs3⟩ := hrec m (List.mem_cons_self m rest) nb r happ A ⊤ hAT
      have hevlt : (f nb A ⊤).1 < ⊤ := by
        rcases le_or_lt ((g nb).1) A with hta | hat
        · obtain ⟨_, hevA⟩ := hfs1 hta
          exact lt_of_le_of_lt hevA hAT
        · rw [hfs2 hat htlt]
          exact htlt
      rw [if_neg (by simp [hmnw]), if_neg (not_le.mpr (sup_lt_iff.mpr ⟨hAT, hevlt⟩)),
        ite_pair_fst]
      exact ih hmv' hrec' hsort' w hwrest hdw
        (fun j hj hjw => hpre j (List.mem_cons_of_mem m hj) hjw)
        (E ⊔ (f nb A ⊤).1) _ (A ⊔ (f nb A ⊤).1)
        (sup_le_sup_right hEA _) (sup_lt_iff.mpr ⟨hAT, hevlt⟩)

theorem min_loop_first_win (f : Board → Score → Score → Score × Option Int)
    (g : Board → Score × Option Int) (b : Board) :
    ∀ ms : List Int,
      (∀ m ∈ ms, ∃ nb r, apply_move b m (-1) = some (nb, r, m)) →
      (∀ m ∈ ms, ∀ nb r, apply_move b m (-1) = some (nb, r, m) →
        ∀ a bt : Score, a < bt → fs_rel ((g nb).1) ((f nb a bt).1) a bt) →
      List.Sorted (· < ·) ms →
      ∀ w, w ∈ ms → drop_wins b w (-1) = true →
        (∀ j ∈ ms, j < w → mval_min g b j ≠ ⊥) →
        ∀ E best B, B ≤ E → ⊥ < B →
          min_loop f b ms E best ⊥ B = ((⊥ : Score), some w) := by
  intro ms
  induction ms with
  | nil =>
    intro _ _ _ w hw
    exact absurd hw (List.not_mem_nil w)
  | cons m rest ih =>
    intro hmv hrec hsort w hw hdw hpre E best B hBE hbB
    obtain ⟨nb, r, happ⟩ := hmv m (List.mem_cons_self m rest)
    have hmv' := fun x hx => hmv x (List.mem_cons_of_mem m hx)
    have hrec' := fun x hx => hrec x (List.mem_cons_of_mem m hx)
    obtain ⟨hall, hsort'⟩ := List.pairwise_cons.mp hsort
    simp only [min_loop, happ]
    rcases List.mem_cons.mp hw with rfl | hwrest
    · have hwm : check_win nb (-1) r w = true := by
        unfold drop_wins at hdw
        rw [happ] at hdw
        exact hdw
      rw [if_pos hwm]
    · have hmw : m < w := hall w hwrest
      have hmne := hpre m (List.mem_cons_self m rest) hmw
      have hmnw : check_win nb (-1) r m = false := by
        rcases hcw : check_win nb (-1) r m with _ | _
        · rfl
        · exfalso
          apply hmne
          simp only [mval_min, happ, hcw, if_true]
      have htne : (g nb).1 ≠ ⊥ := by
        intro hcon
        apply hmne
        simp only [mval_min, happ, hmnw, Bool.false_eq_true, if_false]
        exact hcon
      have htgt : (⊥ : Score) < (g nb).1 := bot_lt_iff_ne_bot.mpr htne
      obtain ⟨hfs1, hfs2, hfs3⟩ := hrec m (List.mem_cons_self m rest) nb r happ ⊥ B hbB
      have hevgt : (⊥ : Score) < (f nb ⊥ B).1 := by
        rcases le_or_lt B ((g nb).1) with hbt | htb
        · obtain ⟨hBev, _⟩ := hfs3 hbt
          exact lt_of_lt_of_le hbB hBev
        · rw [hfs2 htgt htb]
          exact htgt
      rw [if_neg (by simp [hmnw]), if_neg (not_le.mpr (lt_inf_iff.mpr ⟨hbB, hevgt⟩)),
        ite_pair_fst_min]
      exact ih hmv' hrec' hsort' w hwrest hdw
        (fun j hj hjw => hpre j (List.mem_cons_of_mem m hj) hjw)
        (E ⊓ (f nb ⊥ B).1) _ (B ⊓ (f nb ⊥ B).1)
        (inf_le_inf_right _ hBE) (lt_inf_iff.mpr ⟨hbB, hevgt⟩)

theorem minimax_imm_win_max (h : Bool) (d : Nat) (b : Board) (w : Int)
    (hw : w ∈ valid_moves b) (hdw : drop_wins b w 1 = true) :
    (minimax h (d + 1) b true ⊥ ⊤).1 = ⊤ ∧
    ((∀ j ∈ valid_moves b, j < w →
        mval_max (fun nb => minimax_full h d nb false) b j ≠ ⊤) →
      minimax h (d + 1) b true ⊥ ⊤ = ((⊤ : Score), some w)) := by
  have hne : valid_moves b ≠ [] := List.ne_nil_of_mem hw
  have hemp : ¬((valid_moves b).isEmpty = true) := by
    simpa [List.isEmpty_iff] using hne
  simp only [minimax, hemp, if_false, Bool.false_eq_true, eq_self_iff_true, if_true]
  constructor
  · exact max_loop_win_top _ b _ (fun x hx => valid_moves_apply hx 1) ⊥ none ⊥
      le_rfl bot_lt_top ⟨w, hw, hdw⟩
  · intro hpre
    rw [max_loop_first_win (fun nb a bt => minimax h d nb false a bt)
      (fun nb => minimax_full h d nb false) b (valid_moves b)
      (fun x hx => valid_moves_apply hx 1)
      (fun m hm nb r happ a bt habt => minimax_fs h d nb false a bt habt)
      (valid_moves_sorted b) w hw hdw hpre ⊥ none ⊥ le_rfl bot_lt_top]

theorem minimax_imm_win_min (h : Bool) (d : Nat) (b : Board) (w : Int)
    (hw : w ∈ valid_moves b) (hdw : drop_wins b w (-1) = true) :
    (minimax h (d + 1) b false ⊥ ⊤).1 = ⊥ ∧
    ((∀ j ∈ valid_moves b, j < w →
        mval_min (fun nb => minimax_full h d nb true) b j ≠ ⊥) →
      minimax h (d + 1) b false ⊥ ⊤ = ((⊥ : Score), some w)) := by
  have hne : valid_moves b ≠ [] := List.ne_nil_of_mem hw
  have hemp : ¬((valid_moves b).isEmpty = true) := by
    simpa [List.isEmpty_iff] using hne
  simp only [minimax, hemp, if_false, Bool.false_eq_true]
  constructor
  · exact min_loop_win_bot _ b _ (fun x hx => valid_moves_apply hx (-1)) ⊤ none ⊤
      le_rfl bot_lt_top ⟨w, hw, hdw⟩
  · intro hpre
    rw [min_loop_first_win (fun nb a bt => minimax h d nb true a bt)
      (fun nb => minimax_full h d nb true) b (valid_moves b)
      (fun x hx => valid_moves_apply hx (-1))
      (fun m hm nb r happ a bt habt => minimax_fs h d nb true a bt habt)
      (valid_moves_sorted b) w hw hdw hpre ⊤ none ⊤ le_rfl bot_lt_top]

/-! ## Claim theorems -/

/-- Claim C1 (corrected), counterexample to the claim as stated: on the board
b1 (three SELF pieces in a row) at depth 1, the pruned search returns the
immediate win (top, column 0) while the unpruned minimax without the
immediate-win short-circuit returns a finite heuristic score, so the results
differ; moreover, even against the unpruned minimax that keeps the
short-circuit, on board b0 at depth 3 the pruned search returns a different
move (the alpha-beta break on the forced-win subtree of column 0 skips the
immediately winning column 2). -/
theorem c1_counterexample :
    minimax false 1 b1 true ⊥ ⊤ ≠ minimax_nosc false 1 b1 true ∧
    (minimax false 3 b0 true ⊥ ⊤).2 ≠ (minimax_full false 3 b0 true).2 := by
  constructor
  · decide
  · decide

/-- Claim C1 (corrected, amended): for every board, depth, side to move and
evaluator, the score returned by the alpha-beta search on the full window
equals the score of the unpruned full minimax over the same tree with the
same move ordering, evaluator and immediate-win short-circuit; and whenever
that score is not a forced win for the side to move (plus infinity when
maximizing, minus infinity when minimizing), the returned moves are equal as
well. -/
theorem c1_alphabeta_equiv (h : Bool) (d : Nat) (b : Board) (maxim : Bool) :
    (minimax h d b maxim ⊥ ⊤).1 = (minimax_full h d b maxim).1 ∧
    ((minimax_full h d b maxim).1 ≠ (if maxim then (⊤ : Score) else ⊥) →
      (minimax h d b maxim ⊥ ⊤).2 = (minimax_full h d b maxim).2) :=
  minimax_root_eq h d b maxim

/-- Witness for C1 at a concrete input: on the empty board at depth 1 the
pruned and unpruned searches agree on both score and move. -/
theorem c1_witness :
    (minimax false 1 bE true ⊥ ⊤).1 = (minimax_full false 1 bE true).1 ∧
    (minimax false 1 bE true ⊥ ⊤).2 = (minimax_full false 1 bE true).2 :=
  ⟨(c1_alphabeta_equiv false 1 bE true).1,
   (c1_alphabeta_equiv false 1 bE true).2 (by decide)⟩

/-- Claim C2 (corrected), counterexample to the claim as stated: on board b0
at depth 3, column 2 is a legal immediately winning column for the side to
move, yet the search returns column 0, whose drop does not win immediately
(the forced-win subtree of column 0 makes alpha reach plus infinity and the
loop breaks before reaching column 2). -/
theorem c2_counterexample :
    (2 : Int) ∈ valid_moves b0 ∧ drop_wins b0 2 1 = true ∧
    minimax false 3 b0 true ⊥ ⊤ = ((⊤ : Score), some 0) ∧
    drop_wins b0 0 1 = false := by
  refine ⟨by decide, by decide, by decide, by decide⟩

/-- Claim C2 (corrected, amended): for every board, depth at least 1 and
evaluator, if a legal column wins immediately for the side to move then the
root-window search returns score plus infinity (minus infinity for the
minimizing side); and it returns that winning column itself whenever no
earlier legal column is an immediate win or a forced win of the unpruned
subtree search (without that proviso an earlier forced-win column may be
returned instead, as the counterexample shows). -/
theorem c2_immediate_win (h : Bool) (d : Nat) (b : Board) (w : Int) :
    (w ∈ valid_moves b → drop_wins b w 1 = true →
      (minimax h (d + 1) b true ⊥ ⊤).1 = ⊤ ∧
      ((∀ j ∈ valid_moves b, j < w →
          mval_max (fun nb => minimax_full h d nb false) b j ≠ ⊤) →
        minimax h (d + 1) b true ⊥ ⊤ = ((⊤ : Score), some w))) ∧
    (w ∈ valid_moves b → drop_wins b w (-1) = true →
      (minimax h (d + 1) b false ⊥ ⊤).1 = ⊥ ∧
      ((∀ j ∈ valid_moves b, j < w →
          mval_min (fun nb => minimax_full h d nb true) b j ≠ ⊥) →
        minimax h (d + 1) b false ⊥ ⊤ = ((⊥ : Score), some w))) :=
  ⟨fun hw hdw => minimax_imm_win_max h d b w hw hdw,
   fun hw hdw => minimax_imm_win_min h d b w hw hdw⟩

/-- Witness for C2 at a concrete input: on board b2 (immediate wins at
columns 1 and 5, no earlier forced win) the depth-1 search returns column 1
with score plus infinity. -/
theorem c2_witness :
    (minimax false 1 b2 true ⊥ ⊤).1 = ⊤ ∧
    minimax false 1 b2 true ⊥ ⊤ = ((⊤ : Score), some 1) :=
  ⟨((c2_immediate_win false 0 b2 1).1 (by decide) (by decide)).1,
   ((c2_immediate_win false 0 b2 1).1 (by decide) (by decide)).2 (by decide)⟩

/-- Claim C3 (confirmed): for every evaluator, depth and board, the facade
returns the sentinel none exactly when the board has no legal move, and
otherwise returns a column index in 0..6 whose top cell is empty, that is, a
member of the legal-move list. -/
theorem c3_no_legal_move (h : Bool) (d : Nat) (b : Board) :
    (play h d b = none ↔ valid_moves b = []) ∧
    ∀ m, play h d b = some m → 0 ≤ m ∧ m < 7 ∧ b 0 m = 0 := by
  obtain ⟨h1, h2⟩ := minimax_move_spec h d b true ⊥ ⊤
  exact ⟨h1, fun m hm => mem_valid_moves.mp (h2 m hm)⟩

/-- Witness for C3 at concrete inputs: on a board with a fully occupied top
row the facade returns none, and on the empty board at a depth-0 cutoff it
returns the first legal column 0. -/
theorem c3_witness :
    play false 0 bT = none ∧ (0 ≤ (0 : Int) ∧ (0 : Int) < 7 ∧ bE 0 0 = 0) :=
  ⟨(c3_no_legal_move false 0 bT).1.mpr (by decide),
   (c3_no_legal_move false 0 bE).2 0 (by decide)⟩

/-- Claim C4 (confirmed): for every board satisfying the gravity invariant,
every column with at least one empty cell and every player value, applying
the move succeeds, the new board satisfies the gravity invariant, and it
differs from the input in exactly one cell, which changed from empty to the
player value at the landing row of that column (the input board itself is a
value that the update leaves untouched). -/
theorem c4_apply_move_invariant (b : Board) (c p : Int) (hg : gravity b)
    (hemp : ∃ r : Fin 6, b (r : Int) c = 0) (hp : p = 1 ∨ p = -1) :
    ∃ nb i, apply_move b c p = some (nb, i, c) ∧ 0 ≤ i ∧ i ≤ 5 ∧ b i c = 0 ∧
      nb i c = p ∧ (∀ r' c', ¬(r' = i ∧ c' = c) → nb r' c' = b r' c') ∧
      gravity nb := by
  have hp0 : p ≠ 0 := by rcases hp with rfl | rfl <;> norm_num
  obtain ⟨r0, hr0⟩ := hemp
  rcases happ : apply_move b c p with _ | ⟨nb, i, c'⟩
  · exfalso
    have hb := apply_move_eq_none.mp happ ((r0 : Nat) : Int)
      (Int.natCast_nonneg _) (by have := r0.isLt; omega)
    exact hb hr0
  · obtain ⟨hc, hnb, hi0, hi5, hz, hab⟩ := apply_move_eq_some happ
    subst hc
    subst hnb
    refine ⟨_, i, rfl, hi0, hi5, hz, upd_self _ _ _ _, ?_, gravity_upd hg hp0 hab⟩
    intro r' c' hne
    simp only [upd]
    rw [if_neg hne]

/-- Witness for C4 at a concrete input: dropping a SELF piece in column 3 of
the empty board. -/
theorem c4_witness :
    ∃ nb i, apply_move bE 3 1 = some (nb, i, 3) ∧ 0 ≤ i ∧ i ≤ 5 ∧ bE i 3 = 0 ∧
      nb i 3 = 1 ∧ (∀ r' c', ¬(r' = i ∧ c' = 3) → nb r' c' = bE r' c') ∧
      gravity nb :=
  c4_apply_move_invariant bE 3 1 (by decide) ⟨0, by decide⟩ (Or.inl rfl)

/-- Claim C5 (confirmed): on a board satisfying the gravity invariant, a
column whose top cell is occupied makes the move application fail (the
embedded InvalidMove); unconditionally, the application fails exactly when
the column has no empty cell, and a column with an occupied top cell is
excluded from the legal-move list of the search. -/
theorem c5_full_column (b : Board) (c p : Int) :
    (0 ≤ c → c < 7 → gravity b → b 0 c ≠ 0 → apply_move b c p = none) ∧
    (apply_move b c p = none ↔ ∀ r : Fin 6, b (r : Int) c ≠ 0) ∧
    (b 0 c ≠ 0 → c ∉ valid_moves b) := by
  refine ⟨?_, ?_, ?_⟩
  · intro h0 h7 hg ht
    exact apply_move_eq_none.mpr (gravity_col_full hg h0 h7 ht)
  · constructor
    · intro hn r
      exact apply_move_eq_none.mp hn ((r : Nat) : Int)
        (Int.natCast_nonneg _) (by have := r.isLt; omega)
    · intro hall
      apply apply_move_eq_none.mpr
      intro j hj0 hj5
      have hj := hall ⟨j.toNat, by omega⟩
      simp only [Fin.val_mk] at hj
      rwa [Int.toNat_of_nonneg hj0] at hj
  · intro ht hmem
    exact ht (mem_valid_moves.mp hmem).2.2

/-- Witness for C5 at a concrete input: on board bC, whose column 0 is full,
the move application fails and column 0 is not a legal move. -/
theorem c5_witness :
    apply_move bC 0 1 = none ∧ (0 : Int) ∉ valid_moves bC :=
  ⟨(c5_full_column bC 0 1).1 (by decide) (by decide) (by decide) (by decide),
   (c5_full_column bC 0 1).2.2 (by decide)⟩

/-- Claim C6 (confirmed): the fork term of the heuristic evaluator adds
exactly 50 for every empty cell whose simulated SELF drop in that column
creates strictly more than one immediately winning column, and the symmetric
opponent count is subtracted. -/
theorem c6_fork_bonus (b : Board) :
    detect_forks b 1 = 50 * ((fork_cells_count b 1 : Nat) : Int) ∧
    detect_forks b (-1) = 50 * ((fork_cells_count b (-1) : Nat) : Int) ∧
    evaluate_board b = center_term b + pattern_sum b
      + 50 * ((fork_cells_count b 1 : Nat) : Int)
      - 50 * ((fork_cells_count b (-1) : Nat) : Int) := by
  refine ⟨detect_forks_eq b 1, detect_forks_eq b (-1), ?_⟩
  unfold evaluate_board
  rw [detect_forks_eq, detect_forks_eq]

/-- Claim C7 (confirmed): legal moves are enumerated in ascending column
order, and a move whose recursive evaluation is equal to or worse than the
current best neither changes the best score nor overwrites the best column
(the improvement comparison of the maximizing loop is strict). -/
theorem c7_tie_break :
    (∀ b : Board, List.Sorted (· < ·) (valid_moves b)) ∧
    (∀ (f : Board → Score → Score → Score × Option Int) (b : Board) (m : Int)
      (rest : List Int) (E : Score) (best : Option Int) (A B : Score)
      (nb : Board) (r : Int),
      apply_move b m 1 = some (nb, r, m) → check_win nb 1 r m = false →
      (f nb A B).1 ≤ E →
      max_loop f b (m :: rest) E best A B =
        if B ≤ A ⊔ (f nb A B).1 then (E, best)
        else max_loop f b rest E best (A ⊔ (f nb A B).1) B) :=
  ⟨valid_moves_sorted,
   fun f b m rest E best A B _ _ h1 h2 h3 =>
     max_loop_no_overwrite f b m rest E best A B h1 h2 h3⟩

/-- Witness for C7 at a concrete input: a single-move loop on the empty board
whose child evaluation does not exceed the current best. -/
theorem c7_witness :
    max_loop (fun nb a bt => minimax false 0 nb false a bt) bE ([0] : List Int)
        ⊤ none ⊥ ⊤ =
      if (⊤ : Score) ≤ ⊥ ⊔ (minimax false 0 (upd bE 5 0 1) false ⊥ ⊤).1 then
        ((⊤ : Score), none)
      else max_loop (fun nb a bt => minimax false 0 nb false a bt) bE [] ⊤ none
        (⊥ ⊔ (minimax false 0 (upd bE 5 0 1) false ⊥ ⊤).1) ⊤ :=
  c7_tie_break.2 (fun nb a bt => minimax false 0 nb false a bt) bE 0 [] ⊤ none ⊥ ⊤
    (upd bE 5 0 1) 5 rfl (by decide) le_top

/-- Claim C8 (confirmed): win detection is invariant under horizontal
mirroring: checking a win anchored at (row, col) on a board equals checking
the same win anchored at (row, 6 - col) on the horizontally mirrored board. -/
theorem c8_mirror_symmetry (b : Board) (p row col : Int) :
    check_win b p row col = check_win (mirror b) p row (6 - col) :=
  check_win_mirror b p row col

/-- Claim C9 (confirmed): the engine is deterministic: two invocations of the
facade with an identical board observation, depth and evaluator selection
return identical moves, and the determinism flag reports true. -/
theorem c9_deterministic (h : Bool) (d : Nat) (x y : Board) (hobs : x = y) :
    play h d x = play h d y ∧ isDeterministic = true :=
  ⟨by rw [hobs], rfl⟩

/-- Witness for C9 at a concrete input: two invocations on the empty board. -/
theorem c9_witness :
    play false 2 bE = play false 2 bE ∧ isDeterministic = true :=
  c9_deterministic false 2 bE bE rfl

/-- Claim C10 (confirmed): the simple evaluator equals 100 times the number
of legal columns whose SELF drop immediately wins; in particular it is always
non-negative, because the -100 branch is unreachable: the opponent win check
anchored at the landing cell of a SELF drop is always false. -/
theorem c10_simple_eval (b : Board) :
    simple_evaluate_board b = 100 * ((win_cols_count b : Nat) : Int) ∧
    0 ≤ simple_evaluate_board b ∧
    (∀ c : Int, ∀ nb r c', apply_move b c 1 = some (nb, r, c') →
      check_win nb (-1) r c' = false) := by
  refine ⟨simple_evaluate_board_eq b, ?_, ?_⟩
  · rw [simple_evaluate_board_eq b]
    positivity
  · intro c nb r c' happ
    exact opp_check_after_drop happ

/-- Witness for C10 at a concrete input: the opponent win check after the
SELF drop in column 0 of the empty board is false. -/
theorem c10_witness :
    check_win (upd bE 5 0 1) (-1) 5 0 = false :=
  (c10_simple_eval bE).2.2 0 (upd bE 5 0 1) 5 0 rfl
